import Mathlib

/-!
Verification of the PrismaX knowledge-base worker (src/electron/knowledge/).

Shallow embedding conventions:
- JavaScript strings and byte buffers are modelled as `List Char`; a NUL byte
  corresponds to the character with code point 0.
- SQLite tables (`jobs`, `job_items`, `schema_migrations`) are modelled as
  Lean lists of records; row ids (uuids in the source) are modelled as `Nat`
  allocated from a fresh-id counter.
- The worker process is single-threaded JavaScript: every synchronous stretch
  of code between two `await` points is one atomic step.  The run loop of
  `processImportJob` suspends exactly at `await importOneFile(...)`; the rest
  of an iteration, the `finally` block and the synchronous prefix of any job
  started by `scheduleNextPendingJob` all belong to the surrounding atomic
  step.  This is captured by the step functions below and the `WStep` relation.
- File-system effects (stream buffers, directory listings, stat results) are
  parameters of the corresponding functions.
-/

namespace PrismaX

/-! ## Chunking (kb-worker.ts, `chunkTextStream`) -/

/-- Drain loop of `chunkTextStream(...).push`: while the carry holds at least
`chunkSize` characters, emit `carry.slice(0, chunkSize)` and keep
`carry.slice(chunkSize - overlap)`.  The recursion is fuel-indexed so that it
is structural; `carry.length` units of fuel always suffice because each
round removes `chunkSize - overlap ≥ 1` characters.  The extra guard
`overlap < chunkSize` excludes the configuration on which the JavaScript
loop would not terminate; the source only ever uses `chunkSize = 2000`,
`overlap = 200`. -/
def chunkEmitF : Nat → Nat → Nat → List Char → List (List Char) × List Char
  | 0, _, _, carry => ([], carry)
  | fuel + 1, chunkSize, overlap, carry =>
    if chunkSize ≤ carry.length ∧ overlap < chunkSize then
      let out := chunkEmitF fuel chunkSize overlap (carry.drop (chunkSize - overlap))
      (carry.take chunkSize :: out.1, out.2)
    else ([], carry)

/-- Chunks emitted and carry left over after pushing `carry` through an
initially empty `chunkTextStream(chunkSize, overlap)` chunker. -/
def chunkEmit (chunkSize overlap : Nat) (carry : List Char) : List (List Char) × List Char :=
  chunkEmitF carry.length chunkSize overlap carry

/-- Characters removed by JavaScript `String.prototype.trim`: the ECMAScript
WhiteSpace production (TAB, VT, FF, SP, NBSP, ZWNBSP and every Unicode
Space_Separator code point: U+1680, U+2000..U+200A, U+202F, U+205F, U+3000)
together with the LineTerminator production (LF, CR, U+2028 LINE SEPARATOR,
U+2029 PARAGRAPH SEPARATOR). -/
def jsWhitespaceChar (c : Char) : Bool :=
  c == ' ' || c == '\t' || c == '\n' || c == '\r' ||
  c == Char.ofNat 0x0b || c == Char.ofNat 0x0c ||
  c == Char.ofNat 0xa0 || c == Char.ofNat 0x1680 ||
  (0x2000 ≤ c.toNat && c.toNat ≤ 0x200a) ||
  c == Char.ofNat 0x2028 || c == Char.ofNat 0x2029 ||
  c == Char.ofNat 0x202f || c == Char.ofNat 0x205f ||
  c == Char.ofNat 0x3000 || c == Char.ofNat 0xfeff

/-- JavaScript `s.trim()`: drop whitespace from both ends. -/
def jsTrim (l : List Char) : List Char :=
  ((l.dropWhile jsWhitespaceChar).reverse.dropWhile jsWhitespaceChar).reverse

/-- The `flush` closure of `chunkTextStream`: trim the carry and emit it if
nonempty. -/
def chunkerFlush (carry : List Char) : Option (List Char) :=
  let rest := jsTrim carry
  if rest.isEmpty then none else some rest

/-- All chunk contents produced for one document whose decoded text content is
`content`, with the constants `chunkTextStream(2000, 200)` used by
`importOneFile` and `handleCreateNote`: the chunks drained during the pushes
followed by the flushed remainder. -/
def chunkDocument (content : List Char) : List (List Char) :=
  let out := chunkEmit 2000 200 content
  out.1 ++ (match chunkerFlush out.2 with
    | some rest => [rest]
    | none => [])

/-- Chunk rows of a document: `chunk_index` starts at 0 and is incremented per
inserted chunk (`chunkIndex++` in `importOneFile`), so row `k` carries index
`k`. -/
def chunkRows (content : List Char) : List (Nat × List Char) :=
  (chunkDocument content).enum

/-- Reconstruction operator of the claim: concatenate the chunks after
dropping the `overlap`-character prefix that every chunk after the first
repeats from its predecessor. -/
def reconcat (overlap : Nat) : List (List Char) → List Char
  | [] => []
  | c :: cs => c ++ (cs.map (List.drop overlap)).flatten

/-- Helper for the reconstruction proof: rebuild a carry from emitted chunks
plus final carry. -/
def reconFold (overlap : Nat) (es : List (List Char)) (c : List Char) : List Char :=
  es.foldr (fun e acc => e ++ acc.drop overlap) c

/-! ## Binary detection and the text-extension allow-list (kb-worker.ts) -/

/-- Quick heuristic of `bufferLooksBinary`: a buffer containing byte 0x00 is
considered binary. -/
def bufferLooksBinary (buf : List Char) : Bool :=
  buf.contains (Char.ofNat 0)

/-- Extension allow-list of `isSupportedTextExtension`, transcribed from the
source. -/
def textExtensions : List String :=
  [".txt", ".md", ".markdown", ".mdx", ".json", ".jsonl", ".yaml", ".yml",
   ".csv", ".ts", ".tsx", ".js", ".jsx", ".mjs", ".cjs", ".py", ".go", ".rs",
   ".java", ".kt", ".kts", ".rb", ".php", ".html", ".htm", ".css", ".scss",
   ".xml", ".toml", ".ini", ".sh", ".bash", ".zsh", ".sql"]

/-- JavaScript `toLowerCase`, written over the character list of the string
(`String.toLower` of the library computes the same characters). -/
def lowercase (s : String) : String :=
  ⟨s.data.map Char.toLower⟩

/-- Membership test of `isSupportedTextExtension`; the argument is the
file-name extension (`path.extname` of the source path), lower-cased as in
the source. -/
def isSupportedTextExtension (ext : String) : Bool :=
  textExtensions.contains (lowercase ext)

/-! ## Streaming import (kb-worker.ts, `importOneFile`) -/

/-- Job item status values (kb-worker.ts, `type JobItemStatus`). -/
inductive IStatus where
  | pending
  | processing
  | done
  | failed
  | skipped
deriving DecidableEq, Repr

/-- Job status values (kb-worker.ts, `type JobStatus`). -/
inductive JStatus where
  | pending
  | processing
  | paused
  | done
  | failed
  | canceled
deriving DecidableEq, Repr

/-- Mutable indexing state threaded through the `for await` loop of
`importOneFile`: the `decidedBinary` and `canIndex` flags, the chunker carry
and the chunk contents inserted so far. -/
structure ChunkerRun where
  decidedBinary : Bool
  canIndex : Bool
  carry : List Char
  emitted : List (List Char)
deriving DecidableEq, Repr

/-- One `chunker.push(text)` call: append to the carry, drain full chunks. -/
def chunkerPush (st : ChunkerRun) (text : List Char) : ChunkerRun :=
  let out := chunkEmit 2000 200 (st.carry ++ text)
  { st with carry := out.2, emitted := st.emitted ++ out.1 }

/-- One iteration of the `for await (const buf of reader)` loop, restricted to
the indexing side effects (hashing and blob writing are byte-for-byte over
all buffers and are accounted for separately): skip if indexing is off;
on the first buffer decide binary-ness and drop indexing if a NUL byte is
found; otherwise decode and push. -/
def consumeBuffer (st : ChunkerRun) (buf : List Char) : ChunkerRun :=
  if !st.canIndex then st
  else if !st.decidedBinary then
    if bufferLooksBinary buf then { st with decidedBinary := true, canIndex := false }
    else chunkerPush { st with decidedBinary := true } buf
  else chunkerPush st buf

/-- Result of one `importOneFile` call, as visible in the metadata store:
the returned job-item status, whether the `documents` row survived the
transaction, whether its `sha256` column was set, the blob bytes written and
the chunk contents inserted. -/
structure ImportOutcome where
  status : IStatus
  docCommitted : Bool
  sha256Set : Bool
  blob : List Char
  chunks : List (List Char)
deriving DecidableEq, Repr

/-- Model of `importOneFile` on its success path.  `pathExists` and
`isRegularFile` reflect the `fs.promises.stat` probe; `buffers` is the
sequence of buffers the read stream delivers (their concatenation is the
file content); `ext` is the file-name extension.  Database or stream
exceptions (the `catch` branch, which rolls back and returns `failed`) are
outside this model: the claims under test concern the stat guards and the
committed success path. -/
def importOneFile (ext : String) (pathExists : Bool) (isRegularFile : Bool)
    (buffers : List (List Char)) : ImportOutcome :=
  if !pathExists then ⟨.failed, false, false, [], []⟩
  else if !isRegularFile then ⟨.skipped, false, false, [], []⟩
  else
    let st0 : ChunkerRun := ⟨false, isSupportedTextExtension ext, [], []⟩
    let st1 := buffers.foldl consumeBuffer st0
    let st2 := if st1.canIndex then chunkerPush st1 [] else st1
    let flushed := if st2.canIndex then
        (match chunkerFlush st2.carry with
          | some rest => [rest]
          | none => [])
      else []
    { status := if st2.canIndex then .done else .skipped
      docCommitted := true
      sha256Set := true
      blob := buffers.flatten
      chunks := st2.emitted ++ flushed }

/-- First-buffer binary probe: `importOneFile` only ever inspects the first
delivered buffer for a NUL byte. -/
def firstBufferClean : List (List Char) → Bool
  | [] => true
  | b :: _ => !bufferLooksBinary b

/-! ## Worker job-scheduler state (kb-worker.ts) -/

/-- One row of the `jobs` table, restricted to the columns the claims under
test read or write (`payload_json`, `type`, `error_message`, `updated_at` and
`heartbeat_at` are carried along unchanged or are write-only in the modelled
paths). -/
structure Job where
  id : Nat
  status : JStatus
  progressCurrent : Nat
  progressTotal : Nat
  startedAt : Option Nat
  finishedAt : Option Nat
deriving DecidableEq, Repr

/-- One row of the `job_items` table, restricted to the columns the modelled
paths read. -/
structure JobItem where
  id : Nat
  jobId : Nat
  status : IStatus
deriving DecidableEq, Repr

/-- State of one knowledge base inside the worker process: its `jobs` and
`job_items` tables (list order is `created_at` order), the `runningByKb`
entry for this knowledge base, the `inMemoryCanceledJobs` entries, the
suspended run-loop position (job and item currently awaited in
`importOneFile`), and the fresh-id counter standing in for uuid
generation. -/
structure WorkerSt where
  jobs : List Job
  items : List JobItem
  running : Option Nat
  canceledJobs : List Nat
  inFlight : Option (Nat × Nat)
  nextId : Nat
deriving DecidableEq, Repr

/-- State of a knowledge base with no history: empty tables, nothing running,
nothing canceled, nothing in flight. -/
def initialWorkerSt : WorkerSt := ⟨[], [], none, [], none, 0⟩

/-- SQL `UPDATE jobs SET ... WHERE id = ?`: apply `f` to the row with the
given id. -/
def updJob (jobId : Nat) (f : Job → Job) (jobs : List Job) : List Job :=
  jobs.map fun j => if j.id = jobId then f j else j

/-- SQL COALESCE of a nullable timestamp column with `now`. -/
def coalesce : Option Nat → Nat → Option Nat
  | some x, _ => some x
  | none, n => some n

/-- The unconditional `UPDATE jobs SET status = 'processing', started_at =
COALESCE(started_at, ?) ... WHERE id = ?` at the top of `processImportJob`. -/
def markJobProcessing (now jobId : Nat) (jobs : List Job) : List Job :=
  updJob jobId (fun j => { j with status := .processing, startedAt := coalesce j.startedAt now }) jobs

/-- The `UPDATE jobs SET status = 'done', finished_at = ? ... WHERE id = ?`
issued when no pending item remains. -/
def markJobDone (now jobId : Nat) (jobs : List Job) : List Job :=
  updJob jobId (fun j => { j with status := .done, finishedAt := some now }) jobs

/-- The `UPDATE job_items SET status = 'processing' ... WHERE id = ?` issued
before invoking `importOneFile`. -/
def markItemProcessing (itemId : Nat) (items : List JobItem) : List JobItem :=
  items.map fun i => if i.id = itemId then { i with status := .processing } else i

/-- Statuses counted by `status IN ('done', 'failed', 'skipped')`. -/
def isTerminalItem : IStatus → Bool
  | .done => true
  | .failed => true
  | .skipped => true
  | _ => false

/-- The `SELECT COUNT(*) FROM job_items WHERE job_id = ? AND status IN
('done','failed','skipped')` recomputation of `progress_current`. -/
def terminalCount (items : List JobItem) (jobId : Nat) : Nat :=
  items.countP fun i => i.jobId == jobId && isTerminalItem i.status

/-- Number of `job_items` rows of a job. -/
def itemTotal (items : List JobItem) (jobId : Nat) : Nat :=
  items.countP fun i => i.jobId == jobId

/-- The `SELECT ... FROM job_items WHERE job_id = ? AND status = 'pending'
ORDER BY created_at ASC LIMIT 1` query; list order is creation order. -/
def firstPendingItem (items : List JobItem) (jobId : Nat) : Option JobItem :=
  items.find? fun i => i.jobId == jobId && i.status == .pending

/-- The `SELECT status FROM jobs WHERE id = ?` lookup. -/
def findJob (jobs : List Job) (jobId : Nat) : Option Job :=
  jobs.find? fun j => j.id == jobId

/-- Statuses on which the run-loop body continues past its status check
(`break` fires on a missing row, `done`, `failed`, `canceled` and
`paused`). -/
def jobLoopGate : Option JStatus → Bool
  | some .pending => true
  | some .processing => true
  | _ => false

/-- Outcome of one synchronous `while (true)` iteration of
`processImportJob`: either the loop suspended at `await importOneFile`
(after marking the picked item `processing`), or it exited via one of its
`break` paths. -/
inductive IterOut where
  | suspended (s : WorkerSt)
  | exited (s : WorkerSt)

/-- One iteration of the run loop of `processImportJob`, up to its suspension
point: check the in-memory cancel set, re-read the job status, pick the
oldest pending item (marking the job `done` when none remains). -/
def loopIterate (now jobId : Nat) (s : WorkerSt) : IterOut :=
  if jobId ∈ s.canceledJobs then .exited s
  else if jobLoopGate ((findJob s.jobs jobId).map Job.status) then
    match firstPendingItem s.items jobId with
    | none => .exited { s with jobs := markJobDone now jobId s.jobs }
    | some it =>
      .suspended { s with items := markItemProcessing it.id s.items, inFlight := some (jobId, it.id) }
  else .exited s

/-- The synchronous prefix of `processImportJob` once the `runningByKb` guard
has passed: record the job in `runningByKb` and issue the unconditional
`status = 'processing'` update. -/
def beginJobRun (now jobId : Nat) (s : WorkerSt) : WorkerSt :=
  { s with running := some jobId, jobs := markJobProcessing now jobId s.jobs }

/-- Synchronous execution of the run loop from the top of an iteration until
it suspends at `await importOneFile` or returns.  On exit the `finally`
block deletes the `runningByKb` entry and calls `scheduleNextPendingJob`,
which (when no job is `paused`) starts the oldest `pending` job; that start
re-enters the loop, which is the recursive call.  One unit of fuel is spent
per loop entry; `jobs.length + 1` units always suffice because each re-entry
consumes one `pending` job.  The `runningByKb` guard of the re-entered
`processImportJob` is omitted here because the entry just got deleted, so the
guard never fires on this path. -/
def runLoop : Nat → Nat → Nat → WorkerSt → WorkerSt
  | 0, _, _, s => s
  | fuel + 1, now, jobId, s =>
    match loopIterate now jobId s with
    | .suspended s1 => s1
    | .exited s1 =>
      let s2 := { s1 with running := none }
      if s2.jobs.any (fun j => j.status == .paused) then s2
      else match s2.jobs.find? (fun j => j.status == .pending) with
        | none => s2
        | some j => runLoop fuel now j.id (beginJobRun now j.id s2)

/-- Fuel that always suffices for `runLoop` (one unit per job plus one). -/
def stdFuel (s : WorkerSt) : Nat := s.jobs.length + 1

/-- Entry of `processImportJob kbId jobId`: bail out if a different job is
recorded as running for this knowledge base, otherwise record the job,
force its status to `processing` and run the loop. -/
def processImportJob (fuel now jobId : Nat) (s : WorkerSt) : WorkerSt :=
  if s.running.isSome && s.running != some jobId then s
  else runLoop fuel now jobId (beginJobRun now jobId s)

/-- The insert transaction of `handleImportFiles`: one `jobs` row
(`status = 'pending'`, `progress_total = n`, `progress_current = 0`) and `n`
pending `job_items` rows, with fresh ids. -/
def insertJobRows (n : Nat) (s : WorkerSt) : WorkerSt :=
  { s with
    jobs := s.jobs ++ [⟨s.nextId, .pending, 0, n, none, none⟩]
    items := s.items ++ (List.range n).map fun k => (⟨s.nextId + 1 + k, s.nextId, .pending⟩ : JobItem)
    nextId := s.nextId + 1 + n }

/-- Effect of a successful `handleImportFiles` body on the store, given the
resolved deduplicated file count `n`: insert the job and item rows in one
transaction, then start the job immediately if `runningByKb` has no entry
for this knowledge base. -/
def importFilesStep (now n : Nat) (s : WorkerSt) : WorkerSt :=
  let s1 := insertJobRows n s
  if s1.running.isNone then processImportJob (stdFuel s1) now s.nextId s1 else s1

/-- Effect of `handlePauseJob`: `UPDATE jobs SET status = 'paused' WHERE
id = ? AND status IN ('pending', 'processing')`. -/
def pauseJobStep (jobId : Nat) (s : WorkerSt) : WorkerSt :=
  { s with jobs := s.jobs.map fun j =>
      if j.id = jobId ∧ (j.status = .pending ∨ j.status = .processing)
      then { j with status := .paused } else j }

/-- Effect of `handleResumeJob`: `UPDATE jobs SET status = 'pending' WHERE
id = ? AND status IN ('paused', 'pending')`, then start `processImportJob`
for the given job if `runningByKb` has no entry for this knowledge base. -/
def resumeJobStep (now jobId : Nat) (s : WorkerSt) : WorkerSt :=
  let s1 : WorkerSt :=
    { s with jobs := s.jobs.map fun j =>
        if j.id = jobId ∧ (j.status = .paused ∨ j.status = .pending)
        then { j with status := .pending } else j }
  if s1.running.isNone then processImportJob (stdFuel s1) now jobId s1 else s1

/-- Effect of `handleCancelJob`: add the job to `inMemoryCanceledJobs`, then
`UPDATE jobs SET status = 'canceled', finished_at = COALESCE(finished_at, ?)
WHERE id = ?` (no status guard) and `UPDATE job_items SET status = 'skipped'
WHERE job_id = ? AND status IN ('pending', 'processing')`. -/
def cancelJobStep (now jobId : Nat) (s : WorkerSt) : WorkerSt :=
  { s with
    canceledJobs := if jobId ∈ s.canceledJobs then s.canceledJobs else jobId :: s.canceledJobs
    jobs := updJob jobId
      (fun j => { j with status := .canceled, finishedAt := coalesce j.finishedAt now }) s.jobs
    items := s.items.map fun i =>
      if i.jobId = jobId ∧ (i.status = .pending ∨ i.status = .processing)
      then { i with status := .skipped } else i }

/-- Resumption of a suspended run loop when the awaited `importOneFile`
returns with terminal item status `res`: record the item result
(unconditional `UPDATE job_items SET status = ? WHERE id = ?`), recompute
`progress_current` as the count of terminal items, then continue the
`while` loop at its next iteration. -/
def itemCompleteStep (now : Nat) (res : IStatus) (s : WorkerSt) : WorkerSt :=
  match s.inFlight with
  | none => s
  | some (jobId, itemId) =>
    let items1 := s.items.map fun i => if i.id = itemId then { i with status := res } else i
    let s1 : WorkerSt := { s with items := items1, inFlight := none }
    let setProgress := fun (j : Job) => { j with progressCurrent := terminalCount items1 jobId }
    let s2 : WorkerSt := { s1 with jobs := updJob jobId setProgress s1.jobs }
    runLoop (stdFuel s2) now jobId s2

/-- Worker process restart followed by the first `getDb` of this knowledge
base: the in-memory maps are gone (`runningByKb`, `inMemoryCanceledJobs`,
and any suspended loop), and the startup recovery pass runs: every
`jobs` row with status `processing` becomes `paused`, every `job_items`
row with status `processing` becomes `pending`. -/
def reopenStep (s : WorkerSt) : WorkerSt :=
  { jobs := s.jobs.map fun j => if j.status = .processing then { j with status := .paused } else j
    items := s.items.map fun i => if i.status = .processing then { i with status := .pending } else i
    running := none
    canceledJobs := []
    inFlight := none
    nextId := s.nextId }

/-- Atomic steps of the worker for one knowledge base.  `importFiles` carries
the resolved nonempty file count; `itemComplete` carries the terminal status
returned by `importOneFile` (its only possible returns are `done`, `failed`
and `skipped`); `reopen` is a process restart plus the recovery pass. -/
inductive WStep : WorkerSt → WorkerSt → Prop where
  | importFiles (s : WorkerSt) (now n : Nat) (h : 0 < n) : WStep s (importFilesStep now n s)
  | pauseJob (s : WorkerSt) (jobId : Nat) : WStep s (pauseJobStep jobId s)
  | resumeJob (s : WorkerSt) (now jobId : Nat) : WStep s (resumeJobStep now jobId s)
  | cancelJob (s : WorkerSt) (now jobId : Nat) : WStep s (cancelJobStep now jobId s)
  | itemComplete (s : WorkerSt) (now : Nat) (res : IStatus) (h : isTerminalItem res = true) :
      WStep s (itemCompleteStep now res s)
  | reopen (s : WorkerSt) : WStep s (reopenStep s)

/-- Reachability between worker states. -/
def WReach : WorkerSt → WorkerSt → Prop := Relation.ReflTransGen WStep

/-- Number of jobs recorded as `processing`. -/
def processingJobCount (s : WorkerSt) : Nat :=
  s.jobs.countP fun j => j.status == .processing

/-! ## Source resolution and the `handleImportFiles` entry (kb-worker.ts) -/

/-- Import sources of the `kb.importFiles` payload. -/
inductive ImportSource where
  | files (paths : List String)
  | directory (paths : List String) (recursive : Option Bool)

/-- Deduplication of `[...new Set(files)]`: keep the first occurrence of each
path, preserving order. -/
def dedupKeepFirstAux (seen : List String) : List String → List String
  | [] => []
  | x :: xs => if x ∈ seen then dedupKeepFirstAux seen xs else x :: dedupKeepFirstAux (x :: seen) xs

/-- Order-preserving deduplication. -/
def dedupKeepFirst (l : List String) : List String := dedupKeepFirstAux [] l

/-- Files contributed by one source; `listDir` abstracts
`collectFilesFromDirectory` (a file-system traversal), taking the directory
and the effective `recursive` flag (`source.recursive ?? true`). -/
def sourceFiles (listDir : String → Bool → List String) : ImportSource → List String
  | .files paths => paths
  | .directory paths recursive => paths.foldl (fun acc d => acc ++ listDir d (recursive.getD true)) []

/-- Model of `resolveImportFileList`: concatenate all sources, then
deduplicate preserving order. -/
def resolveImportFileList (listDir : String → Bool → List String)
    (sources : List ImportSource) : List String :=
  dedupKeepFirst (sources.foldl (fun acc src => acc ++ sourceFiles listDir src) [])

/-- Model of `handleImportFiles`: validate that `sources` is nonempty, resolve
the file list, fail with the no-files error when it is empty, otherwise
insert the job and its items and possibly start it.  The returned value is
the new job id on success; the returned state is unchanged on every error
path. -/
def handleImportFiles (listDir : String → Bool → List String) (sources : List ImportSource)
    (now : Nat) (s : WorkerSt) : Except String Nat × WorkerSt :=
  if sources.isEmpty then (.error "sources 不能为空", s)
  else
    let files := resolveImportFileList listDir sources
    if files.isEmpty then (.error "未发现可导入的文件", s)
    else (.ok s.nextId, importFilesStep now files.length s)

/-! ## Recovery statement shape (kb-worker.ts, `getDb`) -/

/-- Statements a metadata-store routine may issue, at the granularity needed
to talk about transaction bracketing. -/
inductive MetaStmt where
  | beginTransaction
  | commitTransaction
  | updateJobsProcessingToPaused
  | updateJobItemsProcessingToPending
deriving DecidableEq, Repr

/-- The statement sequence of the startup recovery pass in `getDb`,
transcribed from the source: two prepared UPDATE statements run directly on
the handle, with no `BEGIN`/`COMMIT` around them (each auto-commits on its
own), in contrast with the explicit `db.exec("BEGIN") ... db.exec("COMMIT")`
bracketing used by `importOneFile` and `handleImportFiles`. -/
def recoveryStatements : List MetaStmt :=
  [.updateJobsProcessingToPaused, .updateJobItemsProcessingToPending]

/-- A statement list forms one explicit transaction when it opens with
`BEGIN` and closes with `COMMIT`. -/
def wrappedInOneTransaction (stmts : List MetaStmt) : Bool :=
  match stmts with
  | .beginTransaction :: rest => rest.getLast? == some .commitTransaction
  | _ => false

/-! ## Migrations (paths-node.ts / meta-db, `migrateKnowledgeMetaDb`) -/

/-- The `schema_migrations` table: recorded migration ids in insertion
order.  A migration is modelled as its id together with whether executing
its SQL succeeds. -/
structure MigDb where
  recorded : List Nat
deriving DecidableEq, Repr

/-- The `SELECT COALESCE(MAX(id), 0) FROM schema_migrations` read. -/
def maxRecordedId (db : MigDb) : Nat := db.recorded.foldr max 0

/-- Stable insertion into an id-ascending list (models the comparator
`(a, b) => a.id - b.id`). -/
def insertByIdAsc (m : Nat × Bool) : List (Nat × Bool) → List (Nat × Bool)
  | [] => [m]
  | x :: xs => if m.1 ≤ x.1 then m :: x :: xs else x :: insertByIdAsc m xs

/-- Ascending sort by migration id. -/
def sortByIdAsc (l : List (Nat × Bool)) : List (Nat × Bool) := l.foldr insertByIdAsc []

/-- Body of the single `sqlite.transaction(() => { ... })()` call: execute
each pending migration and record it, in order; `none` when some
migration's SQL throws. -/
def applyMigrationsInTx : MigDb → List (Nat × Bool) → Option MigDb
  | db, [] => some db
  | db, m :: rest => if m.2 then applyMigrationsInTx ⟨db.recorded ++ [m.1]⟩ rest else none

/-- Model of `migrateKnowledgeMetaDb`: select the migrations whose id exceeds
the recorded maximum, sort ascending, and run them all inside one
transaction; on failure the transaction rolls back, leaving the database
unchanged, and the error propagates (`false` flag). -/
def migrateKnowledgeMetaDb (migrations : List (Nat × Bool)) (db : MigDb) : MigDb × Bool :=
  let pending := sortByIdAsc (migrations.filter fun m => maxRecordedId db < m.1)
  if pending.isEmpty then (db, true)
  else
    match applyMigrationsInTx db pending with
    | some db2 => (db2, true)
    | none => (db, false)

/-! ## Inbound message dispatch (kb-worker.ts `process.on("message")`,
worker-client.ts `call`) -/

/-- An inbound worker message: either not an object at all, or an object
whose `id` and `method` fields are read after destructuring (a missing or
non-string field is modelled as the empty string, which is what the
falsiness test `!id || !method` treats the same way). -/
inductive RawMessage where
  | notObject
  | request (id : String) (method : String)

/-- The keys of the worker's handler table. -/
def handlerMethods : List String :=
  ["kb.ensureInitialized", "kb.importFiles", "kb.listJobs", "kb.pauseJob",
   "kb.resumeJob", "kb.cancelJob", "kb.search", "kb.createNote", "kb.getStats"]

/-- A response sent back over the IPC channel: `handled` stands for whatever
`respondOk`/`respondError` the handler invocation produces (both carry the
request id); `unknownMethod` is the `respondError` for a method missing from
the handler table. -/
inductive WireResponse where
  | handled (id : String)
  | unknownMethod (id : String) (message : String)
deriving DecidableEq

/-- The id a response is correlated by. -/
def responseId : WireResponse → String
  | .handled i => i
  | .unknownMethod i _ => i

/-- The `process.on("message")` dispatcher: drop non-objects, drop requests
with a falsy id or method, answer unknown methods with an error response,
and otherwise run the handler (which always responds). -/
def dispatchMessage : RawMessage → Option WireResponse
  | .notObject => none
  | .request id method =>
    if id = "" ∨ method = "" then none
    else if handlerMethods.contains method then some (.handled id)
    else some (.unknownMethod id ("未知方法: " ++ method))

/-- All responses the worker emits for a list of inbound messages. -/
def workerResponses (inbox : List RawMessage) : List WireResponse :=
  inbox.filterMap dispatchMessage

/-- Whether any worker response carries the given correlation id; when false,
the pending `call` of the worker client can only settle through its timer
(or a worker exit). -/
def respondsTo (inbox : List RawMessage) (callId : String) : Bool :=
  (workerResponses inbox).any fun r => responseId r == callId

/-! ## Invariants and demonstration states -/

/-- Monotone evolution of the `jobs` table: every job persists (tracked by
id), its `progress_current` never shrinks and its `progress_total` never
changes. -/
def JobsListMono (a b : List Job) : Prop :=
  ∀ j ∈ a, ∃ jj ∈ b,
    jj.id = j.id ∧ j.progressCurrent ≤ jj.progressCurrent ∧ jj.progressTotal = j.progressTotal

/-- Well-formedness of the two tables relative to the fresh-id counter:
ids are pairwise distinct and below the counter, every job's
`progress_total` equals its item count, and every job's `progress_current`
is at most its count of terminal items. -/
def JobsOk (jobs : List Job) (items : List JobItem) (nid : Nat) : Prop :=
  jobs.Pairwise (fun a b => a.id ≠ b.id) ∧
  items.Pairwise (fun a b => a.id ≠ b.id) ∧
  (∀ j ∈ jobs, j.id < nid) ∧
  (∀ i ∈ items, i.id < nid ∧ i.jobId < nid) ∧
  (∀ j ∈ jobs, itemTotal items j.id = j.progressTotal) ∧
  (∀ j ∈ jobs, j.progressCurrent ≤ terminalCount items j.id)

/-- Well-formedness of a worker state. -/
def WellFormedSt (s : WorkerSt) : Prop := JobsOk s.jobs s.items s.nextId

/-- Demonstration state: one single-file import job driven to `done`
(created at time 1, its item completed at time 2). -/
def doneJobDemo : WorkerSt := itemCompleteStep 2 .done (importFilesStep 1 1 initialWorkerSt)

/-- Demonstration state: one single-file import job canceled at time 2 while
its item was in flight, the item completing afterwards at time 3. -/
def canceledJobDemo : WorkerSt :=
  itemCompleteStep 3 .done (cancelJobStep 2 0 (importFilesStep 1 1 initialWorkerSt))

/-- Demonstration state: the canceled job after a worker restart (the
in-memory canceled set is lost) and a `kb.resumeJob` call at time 4. -/
def staleProgressDemo : WorkerSt :=
  resumeJobStep 4 0 (reopenStep (cancelJobStep 2 0 (importFilesStep 1 1 initialWorkerSt)))

/-- Demonstration state: after cancel and resume of job 0, a second import
arrives at time 5 while job 0 is still recorded as `processing`. -/
def twoProcessingDemo : WorkerSt := importFilesStep 5 1 (resumeJobStep 4 0 canceledJobDemo)

/-- Demonstration state for the recovery pass: a job and an item both left in
`processing` by a crash. -/
def recoveryDemo : WorkerSt :=
  ⟨[⟨0, .processing, 0, 1, some 1, none⟩], [⟨1, 0, .processing⟩], none, [], none, 2⟩

/-! ## Supporting list lemmas -/

theorem map_self_of_fixed {α : Type} :
    ∀ (l : List α) (f : α → α), (∀ a ∈ l, f a = a) → l.map f = l
  | [], _, _ => rfl
  | a :: t, f, h => by
    simp only [List.map_cons]
    rw [h a (by simp), map_self_of_fixed t f (fun x hx => h x (by simp [hx]))]

theorem map_map_self {α : Type} (l : List α) (f : α → α) (h : ∀ a, f (f a) = f a) :
    (l.map f).map f = l.map f := by
  rw [List.map_map]
  induction l with
  | nil => rfl
  | cons a t ih => simp only [List.map_cons, Function.comp_apply, h a, ih]

/-! ## Claim C1: the startup recovery pass -/

/-- Claim C1, counterexample to the transaction clause: the recovery pass of
`getDb` is issued as two prepared UPDATE statements run directly on the
handle, with no `BEGIN`/`COMMIT` bracketing, so it does not run "inside one
transaction" as the claim states (each statement auto-commits on its own). -/
theorem recovery_not_single_transaction :
    wrappedInOneTransaction recoveryStatements = false := by decide

/-- Claim C1, amended: opening a knowledge base's metadata store runs,
immediately after migration — as two consecutive auto-committed UPDATE
statements, not inside one explicit transaction — a crash-recovery pass that
sets every jobs row with status `processing` to `paused` and every job_items
row with status `processing` to `pending`, leaves every other row unchanged,
and running the recovery pass again on the resulting state changes nothing
(it is a stable fixed point). -/
theorem recovery_pass_spec (s : WorkerSt) :
    (∀ j ∈ (reopenStep s).jobs, j.status ≠ .processing) ∧
    (∀ i ∈ (reopenStep s).items, i.status ≠ .processing) ∧
    (∀ j ∈ s.jobs, j.status = .processing →
      ∃ jj ∈ (reopenStep s).jobs, jj.id = j.id ∧ jj.status = .paused) ∧
    (∀ j ∈ s.jobs, j.status ≠ .processing → j ∈ (reopenStep s).jobs) ∧
    (∀ i ∈ s.items, i.status = .processing →
      ∃ ii ∈ (reopenStep s).items, ii.id = i.id ∧ ii.status = .pending) ∧
    (∀ i ∈ s.items, i.status ≠ .processing → i ∈ (reopenStep s).items) ∧
    reopenStep (reopenStep s) = reopenStep s := by
  refine ⟨?_, ?_, ?_, ?_, ?_, ?_, ?_⟩
  · intro j hj
    simp only [reopenStep, List.mem_map] at hj
    obtain ⟨a, _, rfl⟩ := hj
    by_cases h : a.status = .processing <;> simp [h]
  · intro i hi
    simp only [reopenStep, List.mem_map] at hi
    obtain ⟨a, _, rfl⟩ := hi
    by_cases h : a.status = .processing <;> simp [h]
  · intro j hj hp
    exact ⟨{ j with status := .paused }, List.mem_map.2 ⟨j, hj, by rw [if_pos hp]⟩, rfl, rfl⟩
  · intro j hj hp
    exact List.mem_map.2 ⟨j, hj, by rw [if_neg hp]⟩
  · intro i hi hp
    exact ⟨{ i with status := .pending }, List.mem_map.2 ⟨i, hi, by rw [if_pos hp]⟩, rfl, rfl⟩
  · intro i hi hp
    exact List.mem_map.2 ⟨i, hi, by rw [if_neg hp]⟩
  · simp only [reopenStep]
    refine congrArg₂ (fun a b => WorkerSt.mk a b none [] none s.nextId) ?_ ?_
    · exact map_map_self _ _ fun a => by
        by_cases h : a.status = .processing <;> simp [h]
    · exact map_map_self _ _ fun a => by
        by_cases h : a.status = .processing <;> simp [h]

/-- Witness for `recovery_pass_spec` at a concrete crashed state: job 0 in
`processing` becomes `paused`, item 1 in `processing` becomes `pending`. -/
theorem recovery_pass_spec_witness :
    (∃ jj ∈ (reopenStep recoveryDemo).jobs, jj.id = 0 ∧ jj.status = JStatus.paused) ∧
    (∃ ii ∈ (reopenStep recoveryDemo).items, ii.id = 1 ∧ ii.status = IStatus.pending) :=
  ⟨(recovery_pass_spec recoveryDemo).2.2.1 ⟨0, .processing, 0, 1, some 1, none⟩ (by decide) rfl,
   (recovery_pass_spec recoveryDemo).2.2.2.2.1 ⟨1, 0, .processing⟩ (by decide) rfl⟩

/-! ## Claim C7: empty resolved file list -/

/-- Claim C7, confirmed: when `kb.importFiles` is given sources that resolve
to an empty file list, the call itself fails with the no-files error, and
the metadata store is unchanged — in particular no jobs row and no
job_items rows are created. -/
theorem import_files_empty_resolution
    (listDir : String → Bool → List String) (sources : List ImportSource)
    (now : Nat) (s : WorkerSt)
    (hne : sources ≠ [])
    (hres : resolveImportFileList listDir sources = []) :
    handleImportFiles listDir sources now s = (.error "未发现可导入的文件", s) ∧
    (handleImportFiles listDir sources now s).2.jobs = s.jobs ∧
    (handleImportFiles listDir sources now s).2.items = s.items := by
  have h1 : handleImportFiles listDir sources now s = (.error "未发现可导入的文件", s) := by
    cases sources with
    | nil => exact absurd rfl hne
    | cons a t => simp [handleImportFiles, hres]
  exact ⟨h1, by rw [h1], by rw [h1]⟩

/-- Witness for `import_files_empty_resolution`: a directory source whose
listing is empty. -/
theorem import_files_empty_resolution_witness :
    handleImportFiles (fun _ _ => []) [.directory ["/tmp/kb"] none] 7 initialWorkerSt
        = (.error "未发现可导入的文件", initialWorkerSt) ∧
    (handleImportFiles (fun _ _ => []) [.directory ["/tmp/kb"] none] 7 initialWorkerSt).2.jobs
        = initialWorkerSt.jobs ∧
    (handleImportFiles (fun _ _ => []) [.directory ["/tmp/kb"] none] 7 initialWorkerSt).2.items
        = initialWorkerSt.items :=
  import_files_empty_resolution (fun _ _ => []) [.directory ["/tmp/kb"] none] 7 initialWorkerSt
    (by simp) rfl

/-! ## Claim C10: malformed inbound messages are silently dropped -/

/-- Claim C10, confirmed: an inbound worker message that is not an object, or
whose id or method field is missing or empty, is silently discarded — the
worker sends no response at all — so a pending call with that id can only
end through its timeout; a well-formed request whose method is absent from
the handler table is the one that receives an error response, and a
well-formed known method is answered by its handler. -/
theorem dispatch_malformed_silent :
    (dispatchMessage .notObject = none) ∧
    (∀ i m : String, i = "" ∨ m = "" → dispatchMessage (.request i m) = none) ∧
    (∀ i m : String, i ≠ "" → m ≠ "" → handlerMethods.contains m = false →
      dispatchMessage (.request i m) = some (.unknownMethod i ("未知方法: " ++ m))) ∧
    (∀ i m : String, i ≠ "" → m ≠ "" → handlerMethods.contains m = true →
      dispatchMessage (.request i m) = some (.handled i)) ∧
    (∀ (inbox : List RawMessage) (callId : String),
      (∀ i m, RawMessage.request i m ∈ inbox → i = callId → i = "" ∨ m = "") →
      respondsTo inbox callId = false) := by
  refine ⟨rfl, ?_, ?_, ?_, ?_⟩
  · intro i m h
    simp only [dispatchMessage]
    rw [if_pos h]
  · intro i m hi hm hc
    simp only [dispatchMessage]
    rw [if_neg (by simp [hi, hm]), if_neg (by rw [hc]; simp)]
  · intro i m hi hm hc
    simp only [dispatchMessage]
    rw [if_neg (by simp [hi, hm]), if_pos hc]
  · intro inbox callId h
    induction inbox with
    | nil => rfl
    | cons msg rest ih =>
      have ihr := ih fun i m hm hic => h i m (List.mem_cons_of_mem _ hm) hic
      cases msg with
      | notObject =>
        simpa [respondsTo, workerResponses, dispatchMessage] using ihr
      | request i m =>
        by_cases hempty : i = "" ∨ m = ""
        · have hd : dispatchMessage (.request i m) = none := by
            simp only [dispatchMessage]
            rw [if_pos hempty]
          simpa [respondsTo, workerResponses, hd] using ihr
        · have hic : i ≠ callId := fun hic =>
            hempty (h i m (List.mem_cons_self _ _) hic)
          have hri : ∀ r, dispatchMessage (.request i m) = some r → responseId r = i := by
            intro r hr
            simp only [dispatchMessage] at hr
            rw [if_neg hempty] at hr
            by_cases hc : handlerMethods.contains m = true
            · rw [if_pos hc] at hr
              cases hr
              rfl
            · rw [if_neg hc] at hr
              cases hr
              rfl
          cases hd : dispatchMessage (.request i m) with
          | none => simpa [respondsTo, workerResponses, hd] using ihr
          | some r =>
            have : responseId r = i := hri r hd
            simp only [respondsTo, workerResponses, List.filterMap_cons, hd, List.any_cons]
            rw [Bool.or_eq_false_iff]
            refine ⟨by simp [this, hic], ?_⟩
            simpa [respondsTo, workerResponses] using ihr

/-- Witness for `dispatch_malformed_silent`: with an inbox holding a
non-object message and a request whose method is empty, the call with that
id gets no response. -/
theorem dispatch_malformed_silent_witness :
    respondsTo [.notObject, .request "abc" ""] "abc" = false :=
  dispatch_malformed_silent.2.2.2.2 [.notObject, .request "abc" ""] "abc"
    (by
      intro i m hm _
      cases hm with
      | tail _ hm2 =>
        cases hm2 with
        | head => exact Or.inr rfl
        | tail _ hx => cases hx)

/-! ## Claim C8: migration application -/

theorem insertByIdAsc_mem (m x : Nat × Bool) :
    ∀ l : List (Nat × Bool), x ∈ insertByIdAsc m l ↔ x = m ∨ x ∈ l
  | [] => by simp [insertByIdAsc]
  | a :: t => by
    simp only [insertByIdAsc]
    by_cases h : m.1 ≤ a.1
    · rw [if_pos h]
      simp only [List.mem_cons]
    · rw [if_neg h]
      simp only [List.mem_cons, insertByIdAsc_mem m x t]
      tauto

theorem insertByIdAsc_sorted (m : Nat × Bool) :
    ∀ l : List (Nat × Bool), List.Sorted (fun a b => a.1 ≤ b.1) l →
      List.Sorted (fun a b => a.1 ≤ b.1) (insertByIdAsc m l)
  | [], _ => by simp [insertByIdAsc, List.sorted_singleton]
  | a :: t, h => by
    rw [List.sorted_cons] at h
    simp only [insertByIdAsc]
    by_cases hle : m.1 ≤ a.1
    · rw [if_pos hle, List.sorted_cons]
      refine ⟨?_, List.sorted_cons.2 h⟩
      intro b hb
      cases hb with
      | head => exact hle
      | tail _ hb2 => exact le_trans hle (h.1 b hb2)
    · rw [if_neg hle, List.sorted_cons]
      refine ⟨?_, insertByIdAsc_sorted m t h.2⟩
      intro b hb
      rcases (insertByIdAsc_mem m b t).1 hb with rfl | hb2
      · omega
      · exact h.1 b hb2

theorem sortByIdAsc_sorted :
    ∀ l : List (Nat × Bool), List.Sorted (fun a b => a.1 ≤ b.1) (sortByIdAsc l)
  | [] => by simp [sortByIdAsc]
  | a :: t => by
    simp only [sortByIdAsc, List.foldr_cons]
    exact insertByIdAsc_sorted a _ (sortByIdAsc_sorted t)

theorem sortByIdAsc_mem (x : Nat × Bool) :
    ∀ l : List (Nat × Bool), x ∈ sortByIdAsc l ↔ x ∈ l
  | [] => Iff.rfl
  | a :: t => by
    simp only [sortByIdAsc, List.foldr_cons, List.mem_cons]
    rw [insertByIdAsc_mem]
    have := sortByIdAsc_mem x t
    simp only [sortByIdAsc] at this
    rw [this]

theorem applyMigrationsInTx_success :
    ∀ (pend : List (Nat × Bool)) (db : MigDb), (∀ m ∈ pend, m.2 = true) →
      applyMigrationsInTx db pend = some ⟨db.recorded ++ pend.map Prod.fst⟩
  | [], db, _ => by simp [applyMigrationsInTx]
  | m :: t, db, h => by
    simp only [applyMigrationsInTx]
    rw [if_pos (h m (List.mem_cons_self m t))]
    rw [applyMigrationsInTx_success t _ (fun x hx => h x (List.mem_cons_of_mem _ hx))]
    simp

theorem applyMigrationsInTx_failure :
    ∀ (pend : List (Nat × Bool)) (db : MigDb), (∃ m ∈ pend, m.2 = false) →
      applyMigrationsInTx db pend = none
  | [], _, h => by simp at h
  | m :: t, db, h => by
    simp only [applyMigrationsInTx]
    by_cases hm : m.2 = true
    · rw [if_pos hm]
      apply applyMigrationsInTx_failure t
      obtain ⟨x, hx, hxf⟩ := h
      cases hx with
      | head => rw [hxf] at hm; cases hm
      | tail _ hx2 => exact ⟨x, hx2, hxf⟩
    · rw [if_neg hm]

/-- Claim C8, counterexample to the per-migration-transaction clause: with
migration 1 succeeding and migration 2 failing in the same run, nothing at
all is recorded (the whole batch rolls back), although migration 1 alone
would have been applied and recorded. -/
theorem migration_batch_rolls_back :
    migrateKnowledgeMetaDb [(1, true), (2, false)] ⟨[]⟩ = (⟨[]⟩, false) ∧
    migrateKnowledgeMetaDb [(1, true)] ⟨[]⟩ = (⟨[1]⟩, true) := by decide

/-- Claim C8, amended: migration applies exactly the migrations whose id
exceeds the maximum id recorded in schema_migrations, in ascending id order,
recording each success before the next migration runs, but all inside one
transaction covering the whole run — so if a later migration fails, the
entire run rolls back and no migration of the run remains applied or
recorded. -/
theorem migrate_spec (migrations : List (Nat × Bool)) (db : MigDb) :
    ((∀ m ∈ migrations, maxRecordedId db < m.1 → m.2 = true) →
      (migrateKnowledgeMetaDb migrations db).2 = true ∧
      (migrateKnowledgeMetaDb migrations db).1.recorded =
        db.recorded ++
          (sortByIdAsc (migrations.filter fun m => maxRecordedId db < m.1)).map Prod.fst) ∧
    List.Sorted (· ≤ ·)
      ((sortByIdAsc (migrations.filter fun m => maxRecordedId db < m.1)).map Prod.fst) ∧
    (∀ n : Nat,
      n ∈ (sortByIdAsc (migrations.filter fun m => maxRecordedId db < m.1)).map Prod.fst ↔
        ∃ ok : Bool, (n, ok) ∈ migrations ∧ maxRecordedId db < n) ∧
    ((∃ m ∈ migrations, maxRecordedId db < m.1 ∧ m.2 = false) →
      migrateKnowledgeMetaDb migrations db = (db, false)) := by
  refine ⟨?_, ?_, ?_, ?_⟩
  · intro hall
    have hmem : ∀ m ∈ sortByIdAsc (migrations.filter fun m => maxRecordedId db < m.1),
        m.2 = true := by
      intro m hm
      have hm2 := (sortByIdAsc_mem m _).1 hm
      rw [List.mem_filter] at hm2
      exact hall m hm2.1 (by simpa using hm2.2)
    have hsucc := applyMigrationsInTx_success _ db hmem
    by_cases hnil : (sortByIdAsc (migrations.filter fun m => maxRecordedId db < m.1)).isEmpty
    · rw [List.isEmpty_iff] at hnil
      simp only [migrateKnowledgeMetaDb, hnil]
      simp
    · simp only [migrateKnowledgeMetaDb]
      rw [if_neg (by simpa using hnil), hsucc]
      exact ⟨rfl, rfl⟩
  · exact List.Pairwise.map Prod.fst (fun a b hab => hab) (sortByIdAsc_sorted _)
  · intro n
    constructor
    · intro hn
      rw [List.mem_map] at hn
      obtain ⟨⟨n1, ok⟩, hmem, rfl⟩ := hn
      have hm2 := (sortByIdAsc_mem _ _).1 hmem
      rw [List.mem_filter] at hm2
      exact ⟨ok, hm2.1, by simpa using hm2.2⟩
    · intro ⟨ok, hmem, hlt⟩
      rw [List.mem_map]
      refine ⟨(n, ok), ?_, rfl⟩
      rw [sortByIdAsc_mem, List.mem_filter]
      exact ⟨hmem, by simpa using hlt⟩
  · intro ⟨m, hmem, hlt, hfail⟩
    have hpend : m ∈ sortByIdAsc (migrations.filter fun m => maxRecordedId db < m.1) := by
      rw [sortByIdAsc_mem, List.mem_filter]
      exact ⟨hmem, by simpa using hlt⟩
    have hne : ¬(sortByIdAsc (migrations.filter fun m => maxRecordedId db < m.1)).isEmpty := by
      intro he
      rw [List.isEmpty_iff] at he
      rw [he] at hpend
      cases hpend
    simp only [migrateKnowledgeMetaDb]
    rw [if_neg (by simpa using hne), applyMigrationsInTx_failure _ db ⟨m, hpend, hfail⟩]

/-- Witness for `migrate_spec`: two out-of-order succeeding migrations on an
empty database are both applied, in ascending order. -/
theorem migrate_spec_witness :
    (migrateKnowledgeMetaDb [(2, true), (1, true)] ⟨[]⟩).2 = true ∧
    (migrateKnowledgeMetaDb [(2, true), (1, true)] ⟨[]⟩).1.recorded =
      ([] : List Nat) ++
        (sortByIdAsc ([(2, true), (1, true)].filter
          fun m => maxRecordedId ⟨[]⟩ < m.1)).map Prod.fst :=
  (migrate_spec [(2, true), (1, true)] ⟨[]⟩).1 (by decide)

/-! ## Chunker lemmas -/

theorem reconFold_cons (ov : Nat) (e : List Char) (es : List (List Char)) (c : List Char) :
    reconFold ov (e :: es) c = e ++ (reconFold ov es c).drop ov := rfl

theorem chunkEmitF_fuel_eq :
    ∀ (fuel fuel' cs ov : Nat) (carry : List Char),
      carry.length ≤ fuel → carry.length ≤ fuel' →
      chunkEmitF fuel cs ov carry = chunkEmitF fuel' cs ov carry := by
  intro fuel
  induction fuel with
  | zero =>
    intro fuel' cs ov carry h _
    have hc : carry = [] := List.length_eq_zero.1 (Nat.le_zero.1 h)
    subst hc
    cases fuel' with
    | zero => rfl
    | succ f =>
      simp only [chunkEmitF]
      rw [if_neg (by simp only [List.length_nil]; omega)]
  | succ f ih =>
    intro fuel' cs ov carry h h'
    cases fuel' with
    | zero =>
      have hc : carry = [] := List.length_eq_zero.1 (Nat.le_zero.1 h')
      subst hc
      simp only [chunkEmitF]
      rw [if_neg (by simp only [List.length_nil]; omega)]
    | succ f2 =>
      simp only [chunkEmitF]
      by_cases hg : cs ≤ carry.length ∧ ov < cs
      · rw [if_pos hg, if_pos hg]
        have hlen : (carry.drop (cs - ov)).length ≤ f := by
          simp only [List.length_drop]; omega
        have hlen2 : (carry.drop (cs - ov)).length ≤ f2 := by
          simp only [List.length_drop]; omega
        rw [ih f2 cs ov _ hlen hlen2]
      · rw [if_neg hg, if_neg hg]

theorem chunkEmit_stop (carry : List Char) (h : carry.length < 2000) :
    chunkEmit 2000 200 carry = ([], carry) := by
  unfold chunkEmit
  cases hl : carry.length with
  | zero =>
    have hc : carry = [] := List.length_eq_zero.1 hl
    rw [hc]
    rfl
  | succ n =>
    simp only [chunkEmitF]
    rw [if_neg (by omega)]

theorem chunkEmit_step (carry : List Char) (h : 2000 ≤ carry.length) :
    chunkEmit 2000 200 carry =
      (carry.take 2000 :: (chunkEmit 2000 200 (carry.drop 1800)).1,
        (chunkEmit 2000 200 (carry.drop 1800)).2) := by
  unfold chunkEmit
  cases hl : carry.length with
  | zero => omega
  | succ n =>
    simp only [chunkEmitF]
    rw [if_pos ⟨h, by omega⟩]
    have h18 : (2000 : Nat) - 200 = 1800 := by norm_num
    rw [h18]
    rw [chunkEmitF_fuel_eq n (carry.drop 1800).length 2000 200 (carry.drop 1800)
      (by simp only [List.length_drop]; omega) (le_refl _)]

theorem chunkEmit_recon_aux :
    ∀ (n : Nat) (carry : List Char), carry.length ≤ n →
      reconFold 200 (chunkEmit 2000 200 carry).1 (chunkEmit 2000 200 carry).2 = carry := by
  intro n
  induction n with
  | zero =>
    intro carry h
    have hc : carry = [] := List.length_eq_zero.1 (Nat.le_zero.1 h)
    subst hc
    rfl
  | succ n ih =>
    intro carry h
    by_cases hlen : carry.length < 2000
    · rw [chunkEmit_stop carry hlen]
      rfl
    · push_neg at hlen
      rw [chunkEmit_step carry hlen]
      dsimp only
      rw [reconFold_cons, ih (carry.drop 1800) (by simp only [List.length_drop]; omega)]
      rw [List.drop_drop]
      norm_num

theorem chunkEmit_recon (carry : List Char) :
    reconFold 200 (chunkEmit 2000 200 carry).1 (chunkEmit 2000 200 carry).2 = carry :=
  chunkEmit_recon_aux carry.length carry (le_refl _)

theorem chunkEmit_chunk_length_aux :
    ∀ (n : Nat) (carry : List Char), carry.length ≤ n →
      ∀ e ∈ (chunkEmit 2000 200 carry).1, e.length = 2000 := by
  intro n
  induction n with
  | zero =>
    intro carry h e he
    have hc : carry = [] := List.length_eq_zero.1 (Nat.le_zero.1 h)
    subst hc
    cases he
  | succ n ih =>
    intro carry h e he
    by_cases hlen : carry.length < 2000
    · rw [chunkEmit_stop carry hlen] at he
      cases he
    · push_neg at hlen
      rw [chunkEmit_step carry hlen] at he
      dsimp only at he
      cases he with
      | head => simp only [List.length_take]; omega
      | tail _ ht => exact ih (carry.drop 1800) (by simp only [List.length_drop]; omega) e ht

theorem chunkEmit_chunk_length (carry : List Char) :
    ∀ e ∈ (chunkEmit 2000 200 carry).1, e.length = 2000 :=
  chunkEmit_chunk_length_aux carry.length carry (le_refl _)

theorem chunkEmit_nil_carry (carry : List Char) :
    (chunkEmit 2000 200 carry).1 = [] → (chunkEmit 2000 200 carry).2 = carry := by
  by_cases hlen : carry.length < 2000
  · rw [chunkEmit_stop carry hlen]
    intro _
    rfl
  · push_neg at hlen
    rw [chunkEmit_step carry hlen]
    dsimp only
    intro h
    exact absurd h (List.cons_ne_nil _ _)

theorem chunkEmit_carry_lb_aux :
    ∀ (n : Nat) (carry : List Char), carry.length ≤ n →
      (chunkEmit 2000 200 carry).1 ≠ [] → 200 ≤ (chunkEmit 2000 200 carry).2.length := by
  intro n
  induction n with
  | zero =>
    intro carry h hne
    have hc : carry = [] := List.length_eq_zero.1 (Nat.le_zero.1 h)
    subst hc
    exact absurd rfl hne
  | succ n ih =>
    intro carry h hne
    by_cases hlen : carry.length < 2000
    · rw [chunkEmit_stop carry hlen] at hne
      exact absurd rfl hne
    · push_neg at hlen
      rw [chunkEmit_step carry hlen]
      dsimp only
      by_cases hrec : (chunkEmit 2000 200 (carry.drop 1800)).1 = []
      · rw [chunkEmit_nil_carry _ hrec]
        simp only [List.length_drop]
        omega
      · exact ih (carry.drop 1800) (by simp only [List.length_drop]; omega) hrec

theorem chunkEmit_carry_lb (carry : List Char) :
    (chunkEmit 2000 200 carry).1 ≠ [] → 200 ≤ (chunkEmit 2000 200 carry).2.length :=
  chunkEmit_carry_lb_aux carry.length carry (le_refl _)

theorem chunkEmit_carry_lt_aux :
    ∀ (n : Nat) (carry : List Char), carry.length ≤ n →
      (chunkEmit 2000 200 carry).2.length < 2000 := by
  intro n
  induction n with
  | zero =>
    intro carry h
    have hc : carry = [] := List.length_eq_zero.1 (Nat.le_zero.1 h)
    subst hc
    decide
  | succ n ih =>
    intro carry h
    by_cases hlen : carry.length < 2000
    · rw [chunkEmit_stop carry hlen]
      exact hlen
    · push_neg at hlen
      rw [chunkEmit_step carry hlen]
      dsimp only
      exact ih (carry.drop 1800) (by simp only [List.length_drop]; omega)

theorem chunkEmit_carry_lt (carry : List Char) :
    (chunkEmit 2000 200 carry).2.length < 2000 :=
  chunkEmit_carry_lt_aux carry.length carry (le_refl _)

theorem drop_reconFold :
    ∀ (es : List (List Char)) (c : List Char), (∀ e ∈ es, 200 ≤ e.length) →
      (reconFold 200 es c).drop 200 = ((es ++ [c]).map (List.drop 200)).flatten
  | [], c, _ => by simp [reconFold]
  | e :: es, c, h => by
    rw [reconFold_cons, List.drop_append_of_le_length (h e (List.mem_cons_self e es)),
      drop_reconFold es c (fun x hx => h x (List.mem_cons_of_mem _ hx))]
    simp

theorem reconFold_eq_reconcat (es : List (List Char)) (c : List Char)
    (h : ∀ e ∈ es, 200 ≤ e.length) :
    reconFold 200 es c = reconcat 200 (es ++ [c]) := by
  cases es with
  | nil => simp [reconFold, reconcat]
  | cons e es =>
    rw [reconFold_cons]
    simp only [List.cons_append, reconcat]
    rw [drop_reconFold es c (fun x hx => h x (List.mem_cons_of_mem _ hx))]

theorem chunkEmit_append_aux :
    ∀ (n : Nat) (a b : List Char), a.length ≤ n →
      chunkEmit 2000 200 (a ++ b) =
        ((chunkEmit 2000 200 a).1 ++ (chunkEmit 2000 200 ((chunkEmit 2000 200 a).2 ++ b)).1,
          (chunkEmit 2000 200 ((chunkEmit 2000 200 a).2 ++ b)).2) := by
  intro n
  induction n with
  | zero =>
    intro a b h
    have hc : a = [] := List.length_eq_zero.1 (Nat.le_zero.1 h)
    subst hc
    rw [show chunkEmit 2000 200 ([] : List Char) = ([], []) from rfl]
    simp
  | succ n ih =>
    intro a b h
    by_cases hlen : a.length < 2000
    · rw [chunkEmit_stop a hlen]
      simp
    · push_neg at hlen
      have hab : 2000 ≤ (a ++ b).length := by
        simp only [List.length_append]; omega
      rw [chunkEmit_step _ hab, chunkEmit_step a hlen]
      dsimp only
      rw [List.take_append_of_le_length (by omega),
        List.drop_append_of_le_length (by omega)]
      rw [ih (a.drop 1800) b (by simp only [List.length_drop]; omega)]
      simp

theorem chunkEmit_append (a b : List Char) :
    chunkEmit 2000 200 (a ++ b) =
      ((chunkEmit 2000 200 a).1 ++ (chunkEmit 2000 200 ((chunkEmit 2000 200 a).2 ++ b)).1,
        (chunkEmit 2000 200 ((chunkEmit 2000 200 a).2 ++ b)).2) :=
  chunkEmit_append_aux a.length a b (le_refl _)

theorem chunkerPush_append (st : ChunkerRun) (a b : List Char) :
    chunkerPush (chunkerPush st a) b = chunkerPush st (a ++ b) := by
  simp only [chunkerPush]
  rw [show st.carry ++ (a ++ b) = (st.carry ++ a) ++ b from by rw [List.append_assoc]]
  rw [chunkEmit_append (st.carry ++ a) b]
  simp [List.append_assoc]

theorem foldl_consume_off :
    ∀ (bufs : List (List Char)) (st : ChunkerRun), st.canIndex = false →
      bufs.foldl consumeBuffer st = st
  | [], _, _ => rfl
  | b :: bs, st, h => by
    simp only [List.foldl_cons]
    rw [show consumeBuffer st b = st from by simp [consumeBuffer, h]]
    exact foldl_consume_off bs st h

theorem foldl_consume_on :
    ∀ (bufs : List (List Char)) (st : ChunkerRun), st.canIndex = true →
      st.decidedBinary = true → st.carry.length < 2000 →
      bufs.foldl consumeBuffer st = chunkerPush st bufs.flatten
  | [], st, _, _, hc => by
    simp only [List.foldl_nil, List.flatten_nil, chunkerPush, List.append_nil,
      chunkEmit_stop st.carry hc]
  | b :: bs, st, h1, h2, _ => by
    simp only [List.foldl_cons]
    rw [show consumeBuffer st b = chunkerPush st b from by simp [consumeBuffer, h1, h2]]
    rw [foldl_consume_on bs (chunkerPush st b) h1 h2 (chunkEmit_carry_lt _)]
    rw [chunkerPush_append]
    rfl

theorem import_fold_clean (b : List Char) (bs : List (List Char))
    (hb : bufferLooksBinary b = false) :
    (b :: bs).foldl consumeBuffer ⟨false, true, [], []⟩
      = chunkerPush ⟨true, true, [], []⟩ ((b :: bs).flatten) := by
  simp only [List.foldl_cons]
  rw [show consumeBuffer ⟨false, true, [], []⟩ b = chunkerPush ⟨true, true, [], []⟩ b from by
    simp [consumeBuffer, hb]]
  rw [foldl_consume_on bs _ rfl rfl (chunkEmit_carry_lt _)]
  rw [chunkerPush_append]
  rfl

theorem foldl_consume_canIndex (bufs : List (List Char)) (ci : Bool) :
    (bufs.foldl consumeBuffer ⟨false, ci, [], []⟩).canIndex = (ci && firstBufferClean bufs) := by
  cases ci with
  | false =>
    rw [foldl_consume_off bufs _ rfl]
    rfl
  | true =>
    cases bufs with
    | nil => rfl
    | cons b bs =>
      by_cases hb : bufferLooksBinary b = true
      · simp only [List.foldl_cons]
        rw [show consumeBuffer ⟨false, true, [], []⟩ b = ⟨true, false, [], []⟩ from by
          simp [consumeBuffer, hb]]
        rw [foldl_consume_off bs _ rfl]
        simp [firstBufferClean, hb]
      · rw [import_fold_clean b bs (by simpa using hb)]
        simp [chunkerPush, firstBufferClean, Bool.eq_false_iff.2 hb]

theorem importOneFile_fields (ext : String) (buffers : List (List Char)) :
    (importOneFile ext true true buffers).status
      = (if (isSupportedTextExtension ext && firstBufferClean buffers) = true
          then IStatus.done else IStatus.skipped) ∧
    (importOneFile ext true true buffers).docCommitted = true ∧
    (importOneFile ext true true buffers).sha256Set = true ∧
    (importOneFile ext true true buffers).blob = buffers.flatten := by
  have hci := foldl_consume_canIndex buffers (isSupportedTextExtension ext)
  simp only [importOneFile, Bool.not_true, Bool.false_eq_true, if_false, ite_false]
  cases h : (buffers.foldl consumeBuffer ⟨false, isSupportedTextExtension ext, [], []⟩).canIndex with
  | false =>
    rw [h] at hci
    simp [h, ← hci]
  | true =>
    rw [h] at hci
    simp [h, chunkerPush, ← hci]

/-! ## Claim C9: when importOneFile reports done / skipped -/

/-- Claim C9, confirmed: `importOneFile` returns `done` exactly for files
whose content went through chunk indexing (extension in the allow-list and
no NUL byte in the first read buffer); a successfully copied file outside
the allow-list, or with a NUL in its first buffer, is reported `skipped`
even though its document row, blob and sha256 are fully committed; `skipped`
is also the status of non-regular-file sources (which commit nothing), and a
missing path gives `failed`. -/
theorem import_status_done_iff_indexed :
    (∀ (ext : String) (buffers : List (List Char)),
      ((importOneFile ext true true buffers).status = .done ↔
        isSupportedTextExtension ext = true ∧ firstBufferClean buffers = true)) ∧
    (∀ (ext : String) (buffers : List (List Char)),
      isSupportedTextExtension ext = false ∨ firstBufferClean buffers = false →
      (importOneFile ext true true buffers).status = .skipped ∧
      (importOneFile ext true true buffers).docCommitted = true ∧
      (importOneFile ext true true buffers).sha256Set = true ∧
      (importOneFile ext true true buffers).blob = buffers.flatten) ∧
    (∀ (ext : String) (buffers : List (List Char)),
      importOneFile ext false true buffers = ⟨.failed, false, false, [], []⟩) ∧
    (∀ (ext : String) (buffers : List (List Char)),
      importOneFile ext true false buffers = ⟨.skipped, false, false, [], []⟩) := by
  refine ⟨?_, ?_, fun _ _ => rfl, fun _ _ => rfl⟩
  · intro ext buffers
    obtain ⟨hst, -, -, -⟩ := importOneFile_fields ext buffers
    rw [hst]
    by_cases h : (isSupportedTextExtension ext && firstBufferClean buffers) = true
    · rw [if_pos h]
      simp only [Bool.and_eq_true] at h
      simp [h]
    · rw [if_neg h]
      simp only [Bool.and_eq_true] at h
      constructor
      · intro hds
        cases hds
      · intro hcon
        exact absurd ⟨hcon.1, hcon.2⟩ h
  · intro ext buffers hoff
    obtain ⟨hst, hdoc, hsha, hblob⟩ := importOneFile_fields ext buffers
    refine ⟨?_, hdoc, hsha, hblob⟩
    rw [hst, if_neg ?_]
    intro hand
    rw [Bool.and_eq_true] at hand
    cases hoff with
    | inl hx => rw [hx] at hand; cases hand.1
    | inr hx => rw [hx] at hand; cases hand.2

/-- Witness for `import_status_done_iff_indexed`: a text file is `done`, a
png of the same content is `skipped` yet fully stored with its hash. -/
theorem import_status_done_iff_indexed_witness :
    (importOneFile ".txt" true true [['h', 'i']]).status = .done ∧
    (importOneFile ".png" true true [['h', 'i']]).status = .skipped ∧
    (importOneFile ".png" true true [['h', 'i']]).sha256Set = true :=
  ⟨(import_status_done_iff_indexed.1 ".txt" [['h', 'i']]).2 ⟨by decide, by decide⟩,
   (import_status_done_iff_indexed.2.1 ".png" [['h', 'i']] (Or.inl (by decide))).1,
   (import_status_done_iff_indexed.2.1 ".png" [['h', 'i']] (Or.inl (by decide))).2.2.1⟩

/-! ## Claim C6: NUL-byte (binary) files -/

/-- Claim C6, counterexample: a text-extension file whose NUL byte arrives
only in the second stream buffer is chunk-indexed anyway — the blob contains
a NUL byte, yet chunk rows exist and the status is even `done` — because the
binary probe inspects only the first delivered buffer. -/
theorem nul_in_later_buffer_still_indexed :
    bufferLooksBinary (importOneFile ".txt" true true [['a'], [Char.ofNat 0]]).blob = true ∧
    (importOneFile ".txt" true true [['a'], [Char.ofNat 0]]).chunks ≠ [] ∧
    (importOneFile ".txt" true true [['a'], [Char.ofNat 0]]).status = .done := by decide

/-- Claim C6, amended: importing a file whose first read buffer contains a
NUL byte yields a document row with sha256 set and the blob present
(byte-for-byte the full content), but zero chunk rows — binary detection
finds the NUL byte in the first buffer, abandons indexing, and still
completes the copy; the job-item status is `skipped`. -/
theorem first_buffer_nul_skips_indexing (ext : String) (b : List Char)
    (rest : List (List Char)) (hb : bufferLooksBinary b = true) :
    importOneFile ext true true (b :: rest) =
      ⟨.skipped, true, true, (b :: rest).flatten, []⟩ := by
  simp only [importOneFile, Bool.not_true, Bool.false_eq_true, if_false, ite_false]
  cases hext : isSupportedTextExtension ext with
  | false =>
    rw [foldl_consume_off (b :: rest) _ rfl]
    rfl
  | true =>
    simp only [List.foldl_cons]
    rw [show consumeBuffer ⟨false, true, [], []⟩ b = ⟨true, false, [], []⟩ from by
      simp [consumeBuffer, hb]]
    rw [foldl_consume_off rest _ rfl]
    rfl

/-- Witness for `first_buffer_nul_skips_indexing` on a two-buffer file whose
first buffer holds the NUL. -/
theorem first_buffer_nul_skips_indexing_witness :
    importOneFile ".txt" true true [['a', Char.ofNat 0], ['b']] =
      ⟨.skipped, true, true, ['a', Char.ofNat 0, 'b'], []⟩ :=
  first_buffer_nul_skips_indexing ".txt" ['a', Char.ofNat 0] [['b']] (by decide)

/-! ## Claim C5: chunk reconstruction -/

theorem chunkDocument_recon (content : List Char)
    (htrim : jsTrim (chunkEmit 2000 200 content).2 = (chunkEmit 2000 200 content).2) :
    reconcat 200 (chunkDocument content) = content := by
  have hrecon := chunkEmit_recon content
  by_cases hnil : (chunkEmit 2000 200 content).2 = []
  · have h1 : (chunkEmit 2000 200 content).1 = [] := by
      by_contra hne
      have hlb := chunkEmit_carry_lb content hne
      rw [hnil] at hlb
      simp at hlb
    rw [h1, hnil] at hrecon
    have hcontent : content = [] := hrecon.symm
    subst hcontent
    decide
  · have hflush : chunkerFlush (chunkEmit 2000 200 content).2
        = some (chunkEmit 2000 200 content).2 := by
      simp only [chunkerFlush, htrim]
      rw [if_neg (by simpa [List.isEmpty_iff] using hnil)]
    simp only [chunkDocument, hflush]
    rw [← reconFold_eq_reconcat _ _ (fun e he => by
      rw [chunkEmit_chunk_length content e he]; omega)]
    exact hrecon

theorem chunkDocument_short_trim (content : List Char) (h : content.length < 2000) :
    reconcat 200 (chunkDocument content) = jsTrim content := by
  have hstop := chunkEmit_stop content h
  simp only [chunkDocument, hstop, chunkerFlush, List.nil_append]
  by_cases he : (jsTrim content).isEmpty
  · rw [if_pos he]
    simp only [reconcat]
    exact (List.isEmpty_iff.mp he).symm
  · rw [if_neg he]
    simp [reconcat]

theorem importOneFile_chunks (ext : String) (buffers : List (List Char))
    (hext : isSupportedTextExtension ext = true)
    (hclean : firstBufferClean buffers = true) :
    (importOneFile ext true true buffers).chunks = chunkDocument buffers.flatten := by
  simp only [importOneFile, Bool.not_true, Bool.false_eq_true, if_false, ite_false, hext]
  cases buffers with
  | nil => rfl
  | cons b bs =>
    have hb : bufferLooksBinary b = false := by
      simpa [firstBufferClean] using hclean
    rw [import_fold_clean b bs hb]
    rw [show (chunkerPush (⟨true, true, [], []⟩ : ChunkerRun) ((b :: bs).flatten)).canIndex
        = true from rfl]
    simp only [if_true, ite_true]
    rw [chunkerPush_append]
    rw [List.append_nil]
    simp only [chunkerPush, chunkDocument, chunkerFlush, List.nil_append]
    rw [if_pos trivial]

/-- Claim C5, counterexample: a one-character text file holding a single
space imports with `done` status and its blob intact, but produces zero
chunk rows (the flush of the final chunk trims whitespace), so the chunks
cannot reconstruct the original content. -/
theorem chunk_trailing_space_not_reconstructed :
    (importOneFile ".txt" true true [[' ']]).blob = [' '] ∧
    (importOneFile ".txt" true true [[' ']]).status = .done ∧
    (importOneFile ".txt" true true [[' ']]).chunks = [] ∧
    reconcat 200 (importOneFile ".txt" true true [[' ']]).chunks ≠ [' '] := by decide

/-- Claim C5, amended: for an imported text file (allow-listed extension, no
NUL in the first buffer), the stored chunk contents are exactly those of
`chunkTextStream(2000, 200)` fed the decoded content and flushed, and
`chunkIndex` starts at 0 and increases by 1 per emitted chunk with no gaps;
if the final chunker carry is unchanged by JavaScript trimming, then
concatenating the chunks ordered by `chunkIndex` — dropping the
200-character overlap from every chunk after the first — reconstructs the
original decoded content exactly; and for content shorter than one chunk
the reconstruction yields precisely the trimmed content, so boundary
whitespace of a final partial chunk is lost in general (counterexample:
the one-space file yields zero chunks). -/
theorem chunk_reconstruction_spec :
    (∀ content : List Char,
      jsTrim (chunkEmit 2000 200 content).2 = (chunkEmit 2000 200 content).2 →
      reconcat 200 (chunkDocument content) = content) ∧
    (∀ content : List Char, content.length < 2000 →
      reconcat 200 (chunkDocument content) = jsTrim content) ∧
    (∀ (ext : String) (buffers : List (List Char)),
      isSupportedTextExtension ext = true → firstBufferClean buffers = true →
      (importOneFile ext true true buffers).chunks = chunkDocument buffers.flatten) ∧
    (∀ content : List Char,
      (chunkRows content).map Prod.fst = List.range (chunkDocument content).length) :=
  ⟨chunkDocument_recon, chunkDocument_short_trim, importOneFile_chunks,
   fun _ => List.enum_map_fst _⟩

/-- Witness for `chunk_reconstruction_spec`: a short two-buffer text file
reconstructs exactly, and a short content with boundary whitespace
reconstructs to its trimmed form. -/
theorem chunk_reconstruction_spec_witness :
    reconcat 200 (chunkDocument ['a', 'b', 'c']) = ['a', 'b', 'c'] ∧
    reconcat 200 (chunkDocument [' ', 'x', Char.ofNat 0x2028]) =
      jsTrim [' ', 'x', Char.ofNat 0x2028] ∧
    (importOneFile ".md" true true [['a'], ['b', 'c']]).chunks
      = chunkDocument [['a'], ['b', 'c']].flatten :=
  ⟨chunk_reconstruction_spec.1 ['a', 'b', 'c'] (by decide),
   chunk_reconstruction_spec.2.1 [' ', 'x', Char.ofNat 0x2028] (by decide),
   chunk_reconstruction_spec.2.2.1 ".md" [['a'], ['b', 'c']] (by decide) (by decide)⟩

/-! ## Worker scheduler invariants -/

theorem map_congr_of {α β : Type} :
    ∀ (l : List α) (f g : α → β), (∀ a ∈ l, f a = g a) → l.map f = l.map g
  | [], _, _, _ => rfl
  | a :: t, f, g, h => by
    simp only [List.map_cons]
    rw [h a (List.mem_cons_self a t), map_congr_of t f g (fun x hx => h x (List.mem_cons_of_mem _ hx))]

theorem countP_le_countP_of {α : Type} (l : List α) (p q : α → Bool)
    (h : ∀ a ∈ l, p a = true → q a = true) : l.countP p ≤ l.countP q := by
  induction l with
  | nil => exact Nat.le_refl 0
  | cons a t ih =>
    have iht := ih fun x hx => h x (List.mem_cons_of_mem _ hx)
    simp only [List.countP_cons]
    by_cases hp : p a = true
    · rw [if_pos hp, if_pos (h a (List.mem_cons_self a t) hp)]
      omega
    · rw [if_neg hp]
      by_cases hq : q a = true
      · rw [if_pos hq]; omega
      · rw [if_neg hq]; omega

theorem countP_congr_of {α : Type} (l : List α) (p q : α → Bool)
    (h : ∀ a ∈ l, p a = q a) : l.countP p = l.countP q := by
  induction l with
  | nil => rfl
  | cons a t ih =>
    simp only [List.countP_cons, h a (List.mem_cons_self a t)]
    rw [ih fun x hx => h x (List.mem_cons_of_mem _ hx)]

theorem terminalCount_map_le (items : List JobItem) (f : JobItem → JobItem) (jid : Nat)
    (hjid : ∀ i ∈ items, (f i).jobId = i.jobId)
    (ht : ∀ i ∈ items, isTerminalItem i.status = true → isTerminalItem (f i).status = true) :
    terminalCount items jid ≤ terminalCount (items.map f) jid := by
  unfold terminalCount
  rw [List.countP_map]
  apply countP_le_countP_of
  intro i hi hp
  simp only [Bool.and_eq_true, beq_iff_eq] at hp
  simp only [Function.comp_apply, Bool.and_eq_true, beq_iff_eq]
  exact ⟨by rw [hjid i hi, hp.1], ht i hi hp.2⟩

theorem itemTotal_map (items : List JobItem) (f : JobItem → JobItem) (jid : Nat)
    (hjid : ∀ i ∈ items, (f i).jobId = i.jobId) :
    itemTotal (items.map f) jid = itemTotal items jid := by
  unfold itemTotal
  rw [List.countP_map]
  apply countP_congr_of
  intro i hi
  simp only [Function.comp_apply, beq_iff_eq, hjid i hi]

theorem terminalCount_le_itemTotal (items : List JobItem) (jid : Nat) :
    terminalCount items jid ≤ itemTotal items jid := by
  apply countP_le_countP_of
  intro i _ hp
  simp only [Bool.and_eq_true] at hp
  exact hp.1

theorem eq_of_mem_pairwise_ne {α : Type} (key : α → Nat) {l : List α}
    (hp : l.Pairwise fun a b => key a ≠ key b) {a b : α}
    (ha : a ∈ l) (hb : b ∈ l) (hid : key a = key b) : a = b := by
  by_contra hne
  exact (List.Pairwise.forall (fun x y h => h.symm) hp ha hb hne) hid

theorem workerSt_ext {a b : WorkerSt} (h1 : a.jobs = b.jobs) (h2 : a.items = b.items)
    (h3 : a.running = b.running) (h4 : a.canceledJobs = b.canceledJobs)
    (h5 : a.inFlight = b.inFlight) (h6 : a.nextId = b.nextId) : a = b := by
  cases a
  cases b
  simp_all

theorem jobsListMono_refl (jobs : List Job) : JobsListMono jobs jobs :=
  fun j hj => ⟨j, hj, rfl, Nat.le_refl _, rfl⟩

theorem jobsListMono_trans {a b c : List Job} (h1 : JobsListMono a b) (h2 : JobsListMono b c) :
    JobsListMono a c := by
  intro j hj
  obtain ⟨j1, hj1, hid1, hle1, hpt1⟩ := h1 j hj
  obtain ⟨j2, hj2, hid2, hle2, hpt2⟩ := h2 j1 hj1
  exact ⟨j2, hj2, by rw [hid2, hid1], Nat.le_trans hle1 hle2, by rw [hpt2, hpt1]⟩

theorem jobsOk_jobsMap (jobs : List Job) (items : List JobItem) (nid : Nat) (f : Job → Job)
    (hid : ∀ j, (f j).id = j.id)
    (hpc : ∀ j, (f j).progressCurrent = j.progressCurrent)
    (hpt : ∀ j, (f j).progressTotal = j.progressTotal)
    (h : JobsOk jobs items nid) :
    JobsOk (jobs.map f) items nid ∧ JobsListMono jobs (jobs.map f) := by
  obtain ⟨hpj, hpi, hbj, hbi, htot, hcur⟩ := h
  refine ⟨⟨?_, hpi, ?_, hbi, ?_, ?_⟩, ?_⟩
  · exact List.Pairwise.map f (fun a b hab => by rw [hid a, hid b]; exact hab) hpj
  · intro j hj
    obtain ⟨a, ha, rfl⟩ := List.mem_map.1 hj
    rw [hid a]
    exact hbj a ha
  · intro j hj
    obtain ⟨a, ha, rfl⟩ := List.mem_map.1 hj
    rw [hid a, hpt a]
    exact htot a ha
  · intro j hj
    obtain ⟨a, ha, rfl⟩ := List.mem_map.1 hj
    rw [hid a, hpc a]
    exact hcur a ha
  · intro j hj
    exact ⟨f j, List.mem_map.2 ⟨j, hj, rfl⟩, hid j, Nat.le_of_eq (hpc j).symm, hpt j⟩

theorem jobsOk_itemsMap (jobs : List Job) (items : List JobItem) (nid : Nat)
    (f : JobItem → JobItem)
    (hid : ∀ i, (f i).id = i.id)
    (hjid : ∀ i, (f i).jobId = i.jobId)
    (ht : ∀ i ∈ items, isTerminalItem i.status = true → isTerminalItem (f i).status = true)
    (h : JobsOk jobs items nid) : JobsOk jobs (items.map f) nid := by
  obtain ⟨hpj, hpi, hbj, hbi, htot, hcur⟩ := h
  refine ⟨hpj, ?_, hbj, ?_, ?_, ?_⟩
  · exact List.Pairwise.map f (fun a b hab => by rw [hid a, hid b]; exact hab) hpi
  · intro i hi
    obtain ⟨a, ha, rfl⟩ := List.mem_map.1 hi
    rw [hid a, hjid a]
    exact hbi a ha
  · intro j hj
    rw [itemTotal_map items f j.id (fun i _ => hjid i)]
    exact htot j hj
  · intro j hj
    exact Nat.le_trans (hcur j hj)
      (terminalCount_map_le items f j.id (fun i _ => hjid i) ht)

theorem jobsOk_setProgress (jobs : List Job) (items : List JobItem) (nid jobId : Nat)
    (h : JobsOk jobs items nid) :
    JobsOk (jobs.map fun j =>
        if j.id = jobId then { j with progressCurrent := terminalCount items jobId } else j)
      items nid ∧
    JobsListMono jobs (jobs.map fun j =>
        if j.id = jobId then { j with progressCurrent := terminalCount items jobId } else j) := by
  obtain ⟨hpj, hpi, hbj, hbi, htot, hcur⟩ := h
  have hid : ∀ j : Job,
      (if j.id = jobId then { j with progressCurrent := terminalCount items jobId } else j).id
        = j.id := by
    intro j
    by_cases hj : j.id = jobId <;> simp [hj]
  have hpt : ∀ j : Job,
      (if j.id = jobId then { j with progressCurrent := terminalCount items jobId } else j).progressTotal
        = j.progressTotal := by
    intro j
    by_cases hj : j.id = jobId <;> simp [hj]
  have hcur2 : ∀ j ∈ jobs,
      (if j.id = jobId then { j with progressCurrent := terminalCount items jobId } else j).progressCurrent
        ≤ terminalCount items
          (if j.id = jobId then { j with progressCurrent := terminalCount items jobId } else j).id := by
    intro j hj
    by_cases hj2 : j.id = jobId
    · simp only [if_pos hj2, hj2]
      exact Nat.le_refl _
    · simp only [if_neg hj2]
      exact hcur j hj
  have hmono : ∀ j ∈ jobs, j.progressCurrent ≤
      (if j.id = jobId then { j with progressCurrent := terminalCount items jobId } else j).progressCurrent := by
    intro j hj
    by_cases hj2 : j.id = jobId
    · simp only [if_pos hj2]
      have := hcur j hj
      rw [hj2] at this
      exact this
    · simp only [if_neg hj2]
      exact Nat.le_refl _
  refine ⟨⟨?_, hpi, ?_, hbi, ?_, ?_⟩, ?_⟩
  · exact List.Pairwise.map _ (fun a b hab => by rw [hid a, hid b]; exact hab) hpj
  · intro j hj
    obtain ⟨a, ha, rfl⟩ := List.mem_map.1 hj
    rw [hid a]
    exact hbj a ha
  · intro j hj
    obtain ⟨a, ha, rfl⟩ := List.mem_map.1 hj
    rw [hid a, hpt a]
    exact htot a ha
  · intro j hj
    obtain ⟨a, ha, rfl⟩ := List.mem_map.1 hj
    rw [hid a]
    have := hcur2 a ha
    rw [hid a] at this
    exact this
  · intro j hj
    exact ⟨_, List.mem_map.2 ⟨j, hj, rfl⟩, hid j, hmono j hj, hpt j⟩

theorem loopIterate_cases (now jobId : Nat) (s : WorkerSt) :
    (∃ s1, loopIterate now jobId s = .exited s1 ∧
      (s1 = s ∨ s1 = { s with jobs := markJobDone now jobId s.jobs })) ∨
    (∃ it, firstPendingItem s.items jobId = some it ∧ it ∈ s.items ∧ it.status = .pending ∧
      loopIterate now jobId s =
        .suspended
          { s with items := markItemProcessing it.id s.items, inFlight := some (jobId, it.id) }) := by
  unfold loopIterate
  by_cases h1 : jobId ∈ s.canceledJobs
  · rw [if_pos h1]
    exact Or.inl ⟨s, rfl, Or.inl rfl⟩
  · rw [if_neg h1]
    by_cases h2 : jobLoopGate ((findJob s.jobs jobId).map Job.status) = true
    · rw [if_pos h2]
      cases hfp : firstPendingItem s.items jobId with
      | none => exact Or.inl ⟨_, rfl, Or.inr rfl⟩
      | some it =>
        have hp := List.find?_some hfp
        simp only [Bool.and_eq_true, beq_iff_eq] at hp
        exact Or.inr ⟨it, rfl, List.mem_of_find?_eq_some hfp, hp.2, rfl⟩
    · rw [if_neg h2]
      exact Or.inl ⟨s, rfl, Or.inl rfl⟩

theorem runLoop_good :
    ∀ (fuel now jobId : Nat) (s : WorkerSt), WellFormedSt s →
      WellFormedSt (runLoop fuel now jobId s) ∧
      JobsListMono s.jobs (runLoop fuel now jobId s).jobs := by
  intro fuel
  induction fuel with
  | zero =>
    intro now jobId s h
    exact ⟨h, jobsListMono_refl _⟩
  | succ fuel ih =>
    intro now jobId s h
    rcases loopIterate_cases now jobId s with ⟨s1, hit, hs1⟩ | ⟨it, hfp, hmem, hpend, hit⟩
    · have hwf1 : WellFormedSt s1 ∧ JobsListMono s.jobs s1.jobs := by
        rcases hs1 with rfl | rfl
        · exact ⟨h, jobsListMono_refl _⟩
        · exact jobsOk_jobsMap s.jobs s.items s.nextId
            (fun j => if j.id = jobId then { j with status := .done, finishedAt := some now } else j)
            (fun j => by by_cases hj : j.id = jobId <;> simp [hj])
            (fun j => by by_cases hj : j.id = jobId <;> simp [hj])
            (fun j => by by_cases hj : j.id = jobId <;> simp [hj]) h
      obtain ⟨hwf1a, hmono1⟩ := hwf1
      simp only [runLoop, hit]
      by_cases hpause : s1.jobs.any (fun j => j.status == .paused) = true
      · rw [if_pos hpause]
        exact ⟨hwf1a, hmono1⟩
      · rw [if_neg hpause]
        cases hnext : s1.jobs.find? (fun j => j.status == .pending) with
        | none => exact ⟨hwf1a, hmono1⟩
        | some j =>
          have hb := jobsOk_jobsMap s1.jobs s1.items s1.nextId
            (fun x => if x.id = j.id
              then { x with status := .processing, startedAt := coalesce x.startedAt now } else x)
            (fun x => by by_cases hx : x.id = j.id <;> simp [hx])
            (fun x => by by_cases hx : x.id = j.id <;> simp [hx])
            (fun x => by by_cases hx : x.id = j.id <;> simp [hx]) hwf1a
          have hrec := ih now j.id (beginJobRun now j.id { s1 with running := none }) hb.1
          exact ⟨hrec.1, jobsListMono_trans hmono1 (jobsListMono_trans hb.2 hrec.2)⟩
    · simp only [runLoop, hit]
      constructor
      · have ht : ∀ i ∈ s.items, isTerminalItem i.status = true →
            isTerminalItem
              ((fun i => if i.id = it.id then { i with status := .processing } else i) i).status
              = true := by
          intro i hi hterm
          by_cases hii : i.id = it.id
          · have hieq : i = it := eq_of_mem_pairwise_ne JobItem.id h.2.1 hi hmem hii
            rw [hieq, hpend] at hterm
            cases hterm
          · simp only [if_neg hii]
            exact hterm
        exact jobsOk_itemsMap s.jobs s.items s.nextId _
          (fun i => by by_cases hii : i.id = it.id <;> simp [hii])
          (fun i => by by_cases hii : i.id = it.id <;> simp [hii]) ht h
      · exact jobsListMono_refl _

theorem processImportJob_good (fuel now jobId : Nat) (s : WorkerSt) (h : WellFormedSt s) :
    WellFormedSt (processImportJob fuel now jobId s) ∧
    JobsListMono s.jobs (processImportJob fuel now jobId s).jobs := by
  unfold processImportJob
  by_cases hg : (s.running.isSome && s.running != some jobId) = true
  · rw [if_pos hg]
    exact ⟨h, jobsListMono_refl _⟩
  · rw [if_neg hg]
    have hb := jobsOk_jobsMap s.jobs s.items s.nextId
      (fun j => if j.id = jobId
        then { j with status := .processing, startedAt := coalesce j.startedAt now } else j)
      (fun j => by by_cases hj : j.id = jobId <;> simp [hj])
      (fun j => by by_cases hj : j.id = jobId <;> simp [hj])
      (fun j => by by_cases hj : j.id = jobId <;> simp [hj]) h
    have hrec := runLoop_good fuel now jobId (beginJobRun now jobId s) hb.1
    exact ⟨hrec.1, jobsListMono_trans hb.2 hrec.2⟩

theorem insertJobRows_good (n : Nat) (s : WorkerSt) (h : WellFormedSt s) :
    WellFormedSt (insertJobRows n s) ∧ JobsListMono s.jobs (insertJobRows n s).jobs := by
  obtain ⟨hpj, hpi, hbj, hbi, htot, hcur⟩ := h
  constructor
  · show JobsOk (s.jobs ++ [⟨s.nextId, .pending, 0, n, none, none⟩])
      (s.items ++ (List.range n).map fun k => (⟨s.nextId + 1 + k, s.nextId, .pending⟩ : JobItem))
      (s.nextId + 1 + n)
    refine ⟨?_, ?_, ?_, ?_, ?_, ?_⟩
    · rw [List.pairwise_append]
      refine ⟨hpj, List.pairwise_singleton _ _, ?_⟩
      intro a ha b hb
      rw [List.mem_singleton] at hb
      subst hb
      have := hbj a ha
      show a.id ≠ s.nextId
      omega
    · rw [List.pairwise_append]
      refine ⟨hpi, ?_, ?_⟩
      · refine List.Pairwise.map _ ?_ (List.pairwise_lt_range n)
        intro a b hab
        show s.nextId + 1 + a ≠ s.nextId + 1 + b
        omega
      · intro a ha b hb
        obtain ⟨k, hk, rfl⟩ := List.mem_map.1 hb
        have := (hbi a ha).1
        show a.id ≠ s.nextId + 1 + k
        omega
    · intro j hj
      rw [List.mem_append] at hj
      rcases hj with hj | hj
      · have := hbj j hj
        omega
      · rw [List.mem_singleton] at hj
        subst hj
        show s.nextId < s.nextId + 1 + n
        omega
    · intro i hi
      rw [List.mem_append] at hi
      rcases hi with hi | hi
      · obtain ⟨h1, h2⟩ := hbi i hi
        exact ⟨by omega, by omega⟩
      · obtain ⟨k, hk, rfl⟩ := List.mem_map.1 hi
        rw [List.mem_range] at hk
        exact ⟨by show s.nextId + 1 + k < s.nextId + 1 + n; omega,
          by show s.nextId < s.nextId + 1 + n; omega⟩
    · intro j hj
      rw [List.mem_append] at hj
      unfold itemTotal
      rw [List.countP_append]
      rcases hj with hj | hj
      · have hz : ((List.range n).map
            fun k => (⟨s.nextId + 1 + k, s.nextId, .pending⟩ : JobItem)).countP
              (fun i => i.jobId == j.id) = 0 := by
          rw [List.countP_eq_zero]
          intro a ha
          obtain ⟨k, hk, rfl⟩ := List.mem_map.1 ha
          have := hbj j hj
          simp only [beq_iff_eq]
          omega
        rw [hz, Nat.add_zero]
        have := htot j hj
        unfold itemTotal at this
        exact this
      · rw [List.mem_singleton] at hj
        subst hj
        show s.items.countP (fun i => i.jobId == s.nextId) +
          ((List.range n).map
            fun k => (⟨s.nextId + 1 + k, s.nextId, .pending⟩ : JobItem)).countP
              (fun i => i.jobId == s.nextId) = n
        have hz : s.items.countP (fun i => i.jobId == s.nextId) = 0 := by
          rw [List.countP_eq_zero]
          intro a ha
          have := (hbi a ha).2
          simp only [beq_iff_eq]
          omega
        have hn : ((List.range n).map
            fun k => (⟨s.nextId + 1 + k, s.nextId, .pending⟩ : JobItem)).countP
              (fun i => i.jobId == s.nextId) = n := by
          rw [List.countP_eq_length.2 (by
            intro a ha
            obtain ⟨k, hk, rfl⟩ := List.mem_map.1 ha
            simp)]
          rw [List.length_map, List.length_range]
        rw [hz, hn]
        omega
    · intro j hj
      rw [List.mem_append] at hj
      unfold terminalCount
      rw [List.countP_append]
      rcases hj with hj | hj
      · have := hcur j hj
        unfold terminalCount at this
        exact Nat.le_trans this (Nat.le_add_right _ _)
      · rw [List.mem_singleton] at hj
        subst hj
        exact Nat.zero_le _
  · intro j hj
    exact ⟨j, List.mem_append_left _ hj, rfl, Nat.le_refl _, rfl⟩

theorem importFilesStep_good (now n : Nat) (s : WorkerSt) (h : WellFormedSt s) :
    WellFormedSt (importFilesStep now n s) ∧ JobsListMono s.jobs (importFilesStep now n s).jobs := by
  have h1 := insertJobRows_good n s h
  simp only [importFilesStep]
  by_cases hr : (insertJobRows n s).running.isNone = true
  · rw [if_pos hr]
    have h2 := processImportJob_good (stdFuel (insertJobRows n s)) now s.nextId
      (insertJobRows n s) h1.1
    exact ⟨h2.1, jobsListMono_trans h1.2 h2.2⟩
  · rw [if_neg hr]
    exact h1

theorem pauseJobStep_good (jobId : Nat) (s : WorkerSt) (h : WellFormedSt s) :
    WellFormedSt (pauseJobStep jobId s) ∧ JobsListMono s.jobs (pauseJobStep jobId s).jobs :=
  jobsOk_jobsMap s.jobs s.items s.nextId
    (fun j => if j.id = jobId ∧ (j.status = .pending ∨ j.status = .processing)
      then { j with status := .paused } else j)
    (fun j => by
      by_cases hj : j.id = jobId ∧ (j.status = .pending ∨ j.status = .processing) <;> simp [hj])
    (fun j => by
      by_cases hj : j.id = jobId ∧ (j.status = .pending ∨ j.status = .processing) <;> simp [hj])
    (fun j => by
      by_cases hj : j.id = jobId ∧ (j.status = .pending ∨ j.status = .processing) <;> simp [hj]) h

theorem resumeJobStep_good (now jobId : Nat) (s : WorkerSt) (h : WellFormedSt s) :
    WellFormedSt (resumeJobStep now jobId s) ∧ JobsListMono s.jobs (resumeJobStep now jobId s).jobs := by
  have h1 := jobsOk_jobsMap s.jobs s.items s.nextId
    (fun j => if j.id = jobId ∧ (j.status = .paused ∨ j.status = .pending)
      then { j with status := .pending } else j)
    (fun j => by
      by_cases hj : j.id = jobId ∧ (j.status = .paused ∨ j.status = .pending) <;> simp [hj])
    (fun j => by
      by_cases hj : j.id = jobId ∧ (j.status = .paused ∨ j.status = .pending) <;> simp [hj])
    (fun j => by
      by_cases hj : j.id = jobId ∧ (j.status = .paused ∨ j.status = .pending) <;> simp [hj]) h
  set s1 : WorkerSt := { s with jobs := s.jobs.map fun j => if j.id = jobId ∧ (j.status = .paused ∨ j.status = .pending) then { j with status := .pending } else j } with hs1
  have h1w : WellFormedSt s1 := h1.1
  simp only [resumeJobStep]
  by_cases hr : s.running.isNone = true
  · rw [if_pos hr]
    have h2 := processImportJob_good (stdFuel s1) now jobId s1 h1w
    exact ⟨h2.1, jobsListMono_trans h1.2 h2.2⟩
  · rw [if_neg hr]
    exact h1

theorem cancelJobStep_good (now jobId : Nat) (s : WorkerSt) (h : WellFormedSt s) :
    WellFormedSt (cancelJobStep now jobId s) ∧ JobsListMono s.jobs (cancelJobStep now jobId s).jobs := by
  have h1 := jobsOk_jobsMap s.jobs s.items s.nextId
    (fun j => if j.id = jobId
      then { j with status := .canceled, finishedAt := coalesce j.finishedAt now } else j)
    (fun j => by by_cases hj : j.id = jobId <;> simp [hj])
    (fun j => by by_cases hj : j.id = jobId <;> simp [hj])
    (fun j => by by_cases hj : j.id = jobId <;> simp [hj]) h
  have h2 := jobsOk_itemsMap
    (s.jobs.map fun j => if j.id = jobId
      then { j with status := .canceled, finishedAt := coalesce j.finishedAt now } else j)
    s.items s.nextId
    (fun i => if i.jobId = jobId ∧ (i.status = .pending ∨ i.status = .processing)
      then { i with status := .skipped } else i)
    (fun i => by
      by_cases hi : i.jobId = jobId ∧ (i.status = .pending ∨ i.status = .processing) <;> simp [hi])
    (fun i => by
      by_cases hi : i.jobId = jobId ∧ (i.status = .pending ∨ i.status = .processing) <;> simp [hi])
    (fun i _ hterm => by
      by_cases hi : i.jobId = jobId ∧ (i.status = .pending ∨ i.status = .processing)
      · exfalso
        rcases hi.2 with hs | hs <;> rw [hs] at hterm <;> cases hterm
      · simp [hi, hterm]) h1.1
  exact ⟨h2, h1.2⟩

theorem reopenStep_good (s : WorkerSt) (h : WellFormedSt s) :
    WellFormedSt (reopenStep s) ∧ JobsListMono s.jobs (reopenStep s).jobs := by
  have h1 := jobsOk_jobsMap s.jobs s.items s.nextId
    (fun j => if j.status = .processing then { j with status := .paused } else j)
    (fun j => by by_cases hj : j.status = .processing <;> simp [hj])
    (fun j => by by_cases hj : j.status = .processing <;> simp [hj])
    (fun j => by by_cases hj : j.status = .processing <;> simp [hj]) h
  have h2 := jobsOk_itemsMap
    (s.jobs.map fun j => if j.status = .processing then { j with status := .paused } else j)
    s.items s.nextId
    (fun i => if i.status = .processing then { i with status := .pending } else i)
    (fun i => by by_cases hi : i.status = .processing <;> simp [hi])
    (fun i => by by_cases hi : i.status = .processing <;> simp [hi])
    (fun i _ hterm => by
      by_cases hi : i.status = .processing
      · rw [hi] at hterm
        cases hterm
      · simp [hi, hterm]) h1.1
  exact ⟨h2, h1.2⟩

theorem itemCompleteStep_good (now : Nat) (res : IStatus) (hres : isTerminalItem res = true)
    (s : WorkerSt) (h : WellFormedSt s) :
    WellFormedSt (itemCompleteStep now res s) ∧
    JobsListMono s.jobs (itemCompleteStep now res s).jobs := by
  unfold itemCompleteStep
  cases hif : s.inFlight with
  | none => exact ⟨h, jobsListMono_refl _⟩
  | some p =>
    obtain ⟨jobId, itemId⟩ := p
    have h1 := jobsOk_itemsMap s.jobs s.items s.nextId
      (fun i => if i.id = itemId then { i with status := res } else i)
      (fun i => by by_cases hi : i.id = itemId <;> simp [hi])
      (fun i => by by_cases hi : i.id = itemId <;> simp [hi])
      (fun i _ hterm => by by_cases hi : i.id = itemId <;> simp [hi, hres, hterm]) h
    have h2 := jobsOk_setProgress s.jobs
      (s.items.map fun i => if i.id = itemId then { i with status := res } else i)
      s.nextId jobId h1
    have h2w : WellFormedSt { s with jobs := s.jobs.map fun j => if j.id = jobId then { j with progressCurrent := terminalCount (s.items.map fun i => if i.id = itemId then { i with status := res } else i) jobId } else j, items := s.items.map fun i => if i.id = itemId then { i with status := res } else i, inFlight := none } := h2.1
    constructor
    · exact (runLoop_good _ now jobId _ h2w).1
    · exact jobsListMono_trans h2.2 (runLoop_good _ now jobId _ h2w).2

theorem wstep_good {s t : WorkerSt} (hstep : WStep s t) (h : WellFormedSt s) :
    WellFormedSt t ∧ JobsListMono s.jobs t.jobs := by
  cases hstep with
  | importFiles now n hn => exact importFilesStep_good now n s h
  | pauseJob jobId => exact pauseJobStep_good jobId s h
  | resumeJob now jobId => exact resumeJobStep_good now jobId s h
  | cancelJob now jobId => exact cancelJobStep_good now jobId s h
  | itemComplete now res hres => exact itemCompleteStep_good now res hres s h
  | reopen => exact reopenStep_good s h

theorem reach_wf {s : WorkerSt} (h : WReach initialWorkerSt s) : WellFormedSt s := by
  induction h with
  | refl =>
    refine ⟨List.Pairwise.nil, List.Pairwise.nil, ?_, ?_, ?_, ?_⟩ <;>
      simp [initialWorkerSt]
  | tail _ hstep ih => exact (wstep_good hstep ih).1

/-! ## Claim C4: progress monotonicity and the done/total relation -/

/-- Claim C4, counterexample to the `progressCurrent = progressTotal` ↔ `done`
clause: cancel a one-file job while its item is in flight (the item becomes
`skipped` without a progress recompute), restart the worker (the in-memory
canceled set is lost), then call `kb.resumeJob`: the run loop finds no
pending item and marks the job `done` with `progressCurrent = 0` while
`progressTotal = 1`. -/
theorem done_job_with_stale_progress :
    WReach initialWorkerSt staleProgressDemo ∧
    findJob staleProgressDemo.jobs 0 = some ⟨0, .done, 0, 1, some 1, some 4⟩ := by
  refine ⟨?_, by decide⟩
  exact Relation.ReflTransGen.tail
    (Relation.ReflTransGen.tail
      (Relation.ReflTransGen.tail
        (Relation.ReflTransGen.single (WStep.importFiles initialWorkerSt 1 1 (by decide)))
        (WStep.cancelJob _ 2 0))
      (WStep.reopen _))
    (WStep.resumeJob _ 4 0)

/-- Claim C4, amended: in every reachable worker state, every job's
`progressCurrent` is at most its `progressTotal`, and across every step each
job persists with a non-decreasing `progressCurrent` and an unchanged
`progressTotal` (fixed at creation); however status `done` does not coincide
with `progressCurrent = progressTotal` — a cancel-restart-resume sequence
reaches `done` with stale progress. -/
theorem progress_monotone_bounded (s : WorkerSt) (hreach : WReach initialWorkerSt s) :
    (∀ j ∈ s.jobs, j.progressCurrent ≤ j.progressTotal) ∧
    (∀ t : WorkerSt, WStep s t → ∀ j ∈ s.jobs, ∀ jj ∈ t.jobs, jj.id = j.id →
      j.progressCurrent ≤ jj.progressCurrent ∧ jj.progressTotal = j.progressTotal) := by
  have hwf := reach_wf hreach
  obtain ⟨hpj, hpi, hbj, hbi, htot, hcur⟩ := hwf
  constructor
  · intro j hj
    calc j.progressCurrent ≤ terminalCount s.items j.id := hcur j hj
      _ ≤ itemTotal s.items j.id := terminalCount_le_itemTotal s.items j.id
      _ = j.progressTotal := htot j hj
  · intro t hstep j hj jj hjj hid
    have hg := wstep_good hstep ⟨hpj, hpi, hbj, hbi, htot, hcur⟩
    obtain ⟨j2, hj2, hid2, hle2, hpt2⟩ := hg.2 j hj
    have hjj2 : jj = j2 := eq_of_mem_pairwise_ne Job.id hg.1.1 hjj hj2 (by rw [hid, hid2])
    rw [hjj2]
    exact ⟨hle2, hpt2⟩

/-- Witness for `progress_monotone_bounded` at the state after one two-file
import, stepped by a pause. -/
theorem progress_monotone_bounded_witness :
    (∀ j ∈ (importFilesStep 1 2 initialWorkerSt).jobs, j.progressCurrent ≤ j.progressTotal) ∧
    ((0 : Nat) ≤ 0 ∧ (2 : Nat) = 2) :=
  ⟨(progress_monotone_bounded (importFilesStep 1 2 initialWorkerSt)
      (Relation.ReflTransGen.single (WStep.importFiles initialWorkerSt 1 2 (by decide)))).1,
   (progress_monotone_bounded (importFilesStep 1 2 initialWorkerSt)
      (Relation.ReflTransGen.single (WStep.importFiles initialWorkerSt 1 2 (by decide)))).2
      (pauseJobStep 0 (importFilesStep 1 2 initialWorkerSt))
      (WStep.pauseJob _ 0)
      ⟨0, .processing, 0, 2, some 1, none⟩ (by decide)
      ⟨0, .paused, 0, 2, some 1, none⟩ (by decide) rfl⟩

/-! ## Claim C2: the at-most-one-processing invariant is violated -/

/-- Claim C2 is violated by the code: import one file (job 0 runs and awaits
its item), cancel job 0 mid-flight, let the item complete (the loop exits on
the in-memory canceled set), then call `kb.resumeJob` on the canceled job —
`processImportJob` unconditionally forces it back to `processing` and the
loop breaks at the canceled-set check without resetting the status, leaving
`runningByKb` empty; a second import then starts job 2, so two jobs of the
same knowledge base are simultaneously recorded as `processing`. -/
theorem two_processing_jobs_reachable :
    WReach initialWorkerSt twoProcessingDemo ∧ processingJobCount twoProcessingDemo = 2 := by
  refine ⟨?_, by decide⟩
  exact Relation.ReflTransGen.tail
    (Relation.ReflTransGen.tail
      (Relation.ReflTransGen.tail
        (Relation.ReflTransGen.tail
          (Relation.ReflTransGen.single (WStep.importFiles initialWorkerSt 1 1 (by decide)))
          (WStep.cancelJob _ 2 0))
        (WStep.itemComplete _ 3 .done (by decide)))
      (WStep.resumeJob _ 4 0))
    (WStep.importFiles _ 5 1 (by decide))

/-! ## Claim C3: terminal statuses are not absorbing -/

/-- Claim C3, counterexample: drive a one-file job to `done`, then call
`kb.cancelJob` on it — the unguarded UPDATE flips its status from `done` to
`canceled` (its `finished_at` survives through COALESCE), so `done` is not
an absorbing state and cancel on a done job is not a no-op. -/
theorem cancel_on_done_changes_status :
    WReach initialWorkerSt (cancelJobStep 3 0 doneJobDemo) ∧
    (findJob doneJobDemo.jobs 0).map Job.status = some .done ∧
    (findJob (cancelJobStep 3 0 doneJobDemo).jobs 0).map Job.status = some .canceled ∧
    (findJob (cancelJobStep 3 0 doneJobDemo).jobs 0).map Job.finishedAt = some (some 2) := by
  refine ⟨?_, by decide, by decide, by decide⟩
  exact Relation.ReflTransGen.tail
    (Relation.ReflTransGen.tail
      (Relation.ReflTransGen.single (WStep.importFiles initialWorkerSt 1 1 (by decide)))
      (WStep.itemComplete _ 2 .done (by decide)))
    (WStep.cancelJob _ 3 0)

/-- Claim C3, amended: `cancelJob` unconditionally sets any job's status to
`canceled` (also from `done` or `failed`), preserving an already-set
`finished_at` through COALESCE, leaving progress columns untouched and
already-terminal items unchanged; cancelling twice is stable (the second
cancel changes nothing at all).  `resumeJob` on a canceled job does not
change its status directly, but it re-enters `processImportJob`, which
forces the job to `processing`; with the job in the in-memory canceled set
the loop then exits immediately, leaving the job recorded as `processing`
with nothing running. -/
theorem cancel_resume_actual_behavior :
    (∀ (s : WorkerSt) (now jobId : Nat) (j : Job), j ∈ s.jobs → j.id = jobId →
      ∃ jj ∈ (cancelJobStep now jobId s).jobs,
        jj.id = jobId ∧ jj.status = .canceled ∧ jj.finishedAt = coalesce j.finishedAt now ∧
        jj.progressCurrent = j.progressCurrent ∧ jj.progressTotal = j.progressTotal) ∧
    (∀ (s : WorkerSt) (now jobId : Nat),
      (∀ i ∈ s.items, i.jobId = jobId → isTerminalItem i.status = true) →
      (cancelJobStep now jobId s).items = s.items) ∧
    (∀ (s : WorkerSt) (now1 now2 jobId : Nat),
      cancelJobStep now2 jobId (cancelJobStep now1 jobId s) = cancelJobStep now1 jobId s) ∧
    ((findJob (resumeJobStep 4 0 canceledJobDemo).jobs 0).map Job.status = some .processing ∧
      (resumeJobStep 4 0 canceledJobDemo).running = none) := by
  refine ⟨?_, ?_, ?_, by decide, by decide⟩
  · intro s now jobId j hj hid
    exact ⟨{ j with status := .canceled, finishedAt := coalesce j.finishedAt now },
      List.mem_map.2 ⟨j, hj, by rw [if_pos hid]⟩, hid, rfl, rfl, rfl, rfl⟩
  · intro s now jobId hterm
    show s.items.map _ = s.items
    apply map_self_of_fixed
    intro i hi
    rw [if_neg]
    rintro ⟨hjid, hstat⟩
    have hti := hterm i hi hjid
    rcases hstat with h1 | h1 <;> rw [h1] at hti <;> cases hti
  · intro s now1 now2 jobId
    apply workerSt_ext
    · show updJob jobId
        (fun j => { j with status := .canceled, finishedAt := coalesce j.finishedAt now2 })
        (updJob jobId
          (fun j => { j with status := .canceled, finishedAt := coalesce j.finishedAt now1 })
          s.jobs)
        = updJob jobId
          (fun j => { j with status := .canceled, finishedAt := coalesce j.finishedAt now1 })
          s.jobs
      unfold updJob
      rw [List.map_map]
      apply map_congr_of
      intro j _
      simp only [Function.comp_apply]
      by_cases hj : j.id = jobId
      · cases hjf : j.finishedAt <;> simp [hj, coalesce]
      · simp [hj]
    · show (s.items.map fun i =>
          if i.jobId = jobId ∧ (i.status = .pending ∨ i.status = .processing)
          then { i with status := .skipped } else i).map
            (fun i => if i.jobId = jobId ∧ (i.status = .pending ∨ i.status = .processing)
              then { i with status := .skipped } else i)
        = s.items.map fun i =>
            if i.jobId = jobId ∧ (i.status = .pending ∨ i.status = .processing)
            then { i with status := .skipped } else i
      rw [List.map_map]
      apply map_congr_of
      intro i _
      simp only [Function.comp_apply]
      by_cases hi : i.jobId = jobId ∧ (i.status = .pending ∨ i.status = .processing)
      · simp [hi]
      · simp [hi]
    · rfl
    · show (if jobId ∈ (if jobId ∈ s.canceledJobs then s.canceledJobs else jobId :: s.canceledJobs)
          then (if jobId ∈ s.canceledJobs then s.canceledJobs else jobId :: s.canceledJobs)
          else jobId :: (if jobId ∈ s.canceledJobs then s.canceledJobs else jobId :: s.canceledJobs))
        = (if jobId ∈ s.canceledJobs then s.canceledJobs else jobId :: s.canceledJobs)
      by_cases hmem : jobId ∈ s.canceledJobs
      · rw [if_pos hmem, if_pos hmem]
      · rw [if_neg hmem, if_pos (List.mem_cons_self _ _)]
    · rfl
    · rfl

/-- Witness for `cancel_resume_actual_behavior` at the concrete done-job
state. -/
theorem cancel_resume_actual_behavior_witness :
    (∃ jj ∈ (cancelJobStep 3 0 doneJobDemo).jobs,
      jj.id = 0 ∧ jj.status = JStatus.canceled ∧
      jj.finishedAt = coalesce (Job.finishedAt ⟨0, .done, 1, 1, some 1, some 2⟩) 3 ∧
      jj.progressCurrent = Job.progressCurrent ⟨0, .done, 1, 1, some 1, some 2⟩ ∧
      jj.progressTotal = Job.progressTotal ⟨0, .done, 1, 1, some 1, some 2⟩) ∧
    (cancelJobStep 9 0 doneJobDemo).items = doneJobDemo.items ∧
    cancelJobStep 8 0 (cancelJobStep 7 0 doneJobDemo) = cancelJobStep 7 0 doneJobDemo :=
  ⟨cancel_resume_actual_behavior.1 doneJobDemo 3 0 ⟨0, .done, 1, 1, some 1, some 2⟩
      (by decide) rfl,
   cancel_resume_actual_behavior.2.1 doneJobDemo 9 0 (by decide),
   cancel_resume_actual_behavior.2.2.1 doneJobDemo 7 8 0⟩

end PrismaX
